import Mathlib

/-!
Verification development for the byte-oriented EEPROM emulation
(`EEPROMEmulation` in services/inc/eeprom_emulation_byte.h, the final
revision in that header, together with the record-oriented
`getActiveSector` of the earlier revision in the same header).

Flash memory is modelled as a total map from byte address to stored
byte.  The flash store collaborator (`RAMFlashStorage` /
the hardware flash interface) is not part of the sources, so its three
operations are modelled from the specification:
read is infallible, `write` programs under the NOR constraint
(result byte = old byte AND new byte) and reports verified success,
and `eraseSector` resets a whole sector to 0xFF.

Every mutating operation additionally returns the list of flash
operations (program/erase) it issued, so that frame conditions and
reset injection (applying only a prefix of the issued operations)
can be stated.
-/

namespace EEB

/-- Flash memory: a total map from byte address to stored cell value. -/
abbrev Flash := Nat → Nat

/-- Canonical byte view of a flash cell (cells hold bytes). -/
def Flash.byte (f : Flash) (a : Nat) : Nat := f a % 256

/-- The four template parameters PageBase1, PageSize1, PageBase2, PageSize2. -/
structure Geom where
  base1 : Nat
  size1 : Nat
  base2 : Nat
  size2 : Nat

/-- Modelled from the spec: a flash-store operation issued by the emulation —
either a program of a byte string at an address or a whole-sector erase. -/
inductive FlashOp where
  | program (addr : Nat) (bytes : List Nat)
  | eraseSector (base size : Nat)
deriving DecidableEq

/-- Modelled from the spec: NOR-flash program. Each programmed cell becomes
(old byte) AND (requested byte); cells outside the written range keep
their value. -/
def Flash.write (f : Flash) (addr : Nat) (bytes : List Nat) : Flash :=
  fun a =>
    if addr ≤ a ∧ a < addr + bytes.length then
      (f.byte a) &&& (bytes.getD (a - addr) 0 % 256)
    else f a

/-- Modelled from the spec: a program call reports success iff the verified
read-back equals the requested bytes. -/
def writeVerifies (f : Flash) (addr : Nat) (bytes : List Nat) : Bool :=
  (List.range bytes.length).all fun i =>
    ((f.byte (addr + i)) &&& (bytes.getD i 0 % 256)) == bytes.getD i 0 % 256

/-- Modelled from the spec: sector erase resets every byte of the sector
to 0xFF. -/
def Flash.eraseRegion (f : Flash) (base size : Nat) : Flash :=
  fun a => if base ≤ a ∧ a < base + size then 0xFF else f a

/-- Replay one issued flash operation on a flash state. -/
def applyOp (f : Flash) : FlashOp → Flash
  | .program addr bytes => f.write addr bytes
  | .eraseSector base size => f.eraseRegion base size

/-- Replay a list of issued flash operations in order. -/
def applyOps (f : Flash) (ops : List FlashOp) : Flash := ops.foldl applyOp f

/-- LogicalPage of EEPROMEmulation. -/
inductive LogicalPage where
  | NoPage
  | Page1
  | Page2
deriving DecidableEq

/-- The in-memory emulator state: the flash contents plus the cached
active/alternate page tags. -/
structure EE where
  flash : Flash
  activePage : LogicalPage
  alternatePage : LogicalPage

/-- FLASH_ERASED. -/
def FLASH_ERASED : Nat := 0xFF

namespace PageHeader

/-- PageHeader::ERASED. -/
def ERASED : Nat := 0xFFFF

/-- PageHeader::COPY. -/
def COPY : Nat := 0x0FFF

/-- PageHeader::ACTIVE. -/
def ACTIVE : Nat := 0x00FF

/-- PageHeader::INACTIVE. -/
def INACTIVE : Nat := 0x000F

/-- PageHeader::LEGACY_ACTIVE. -/
def LEGACY_ACTIVE : Nat := 0x0000

end PageHeader

/-- PageHeader is a packed struct holding a single uint16 status, so its
size is two bytes. -/
def pageHeaderSize : Nat := 2

/-- A record as stored on flash: 16-bit index, 8-bit status, 8-bit data. -/
structure Record where
  index : Nat
  status : Nat
  data : Nat
deriving DecidableEq

namespace Record

/-- Record::EMPTY. -/
def EMPTY : Nat := 0xFF

/-- Record::INVALID. -/
def INVALID : Nat := 0x0F

/-- Record::VALID. -/
def VALID : Nat := 0x00

/-- Record::EMPTY_INDEX. -/
def EMPTY_INDEX : Nat := 0xFFFF

end Record

/-- Records are packed structs of four bytes. -/
def recordSize : Nat := 4

/-- getPageStart. -/
def getPageStart (g : Geom) : LogicalPage → Nat
  | .Page1 => g.base1
  | .Page2 => g.base2
  | .NoPage => 0

/-- getPageEnd (one past the end of the page). -/
def getPageEnd (g : Geom) : LogicalPage → Nat
  | .Page1 => g.base1 + g.size1
  | .Page2 => g.base2 + g.size2
  | .NoPage => 0

/-- getPageSize. -/
def getPageSize (g : Geom) : LogicalPage → Nat
  | .Page1 => g.size1
  | .Page2 => g.size2
  | .NoPage => 0

/-- SmallestPageSize. -/
def SmallestPageSize (g : Geom) : Nat := min g.size1 g.size2

/-- capacity(): (SmallestPageSize - sizeof(PageHeader)) / sizeof(Record). -/
def capacity (g : Geom) : Nat := (SmallestPageSize g - pageHeaderSize) / recordSize

/-- readPageStatus: the little-endian uint16 at the start of the page. -/
def readPageStatus (g : Geom) (f : Flash) (p : LogicalPage) : Nat :=
  f.byte (getPageStart g p) + 256 * f.byte (getPageStart g p + 1)

/-- Little-endian byte string of a uint16 page status. -/
def statusBytes (status : Nat) : List Nat := [status % 256, status / 256 % 256]

/-- writePageStatus: program the two status bytes at the page start; reports
whether the program verified. -/
def writePageStatus (g : Geom) (s : EE) (p : LogicalPage) (status : Nat) :
    Bool × EE × List FlashOp :=
  (writeVerifies s.flash (getPageStart g p) (statusBytes status),
   { s with flash := s.flash.write (getPageStart g p) (statusBytes status) },
   [FlashOp.program (getPageStart g p) (statusBytes status)])

/-- updateActivePage: pick the first ACTIVE page, falling back to a legacy
page, else no page. -/
def updateActivePage (g : Geom) (s : EE) : EE :=
  let status1 := readPageStatus g s.flash .Page1
  let status2 := readPageStatus g s.flash .Page2
  if status1 = PageHeader.ACTIVE then
    { s with activePage := .Page1, alternatePage := .Page2 }
  else if status2 = PageHeader.ACTIVE then
    { s with activePage := .Page2, alternatePage := .Page1 }
  else if status1 = PageHeader.LEGACY_ACTIVE then
    { s with activePage := .Page1, alternatePage := .Page2 }
  else if status2 = PageHeader.LEGACY_ACTIVE then
    { s with activePage := .Page2, alternatePage := .Page1 }
  else
    { s with activePage := .NoPage, alternatePage := .NoPage }

/-- The record stored at a flash address: little-endian uint16 index, then
the status byte, then the data byte. -/
def recordAt (f : Flash) (a : Nat) : Record :=
  { index := f.byte a + 256 * f.byte (a + 1)
    status := f.byte (a + 2)
    data := f.byte (a + 3) }

/-- Number of iterations of the forEachRecord loop: it starts at addr,
steps by four and runs while the address is below endAddr. -/
def slotCount (endAddr addr : Nat) : Nat := (endAddr - addr + 3) / 4

/-- The addresses visited by the forEachRecord loop together with the
records read there, driven by the iteration count. -/
def scanSlots (f : Flash) (addr : Nat) : Nat → List (Nat × Record)
  | 0 => []
  | n + 1 => (addr, recordAt f addr) :: scanSlots f (addr + 4) n

/-- forEachRecord: all record slots of a page, starting right after the
two-byte page header and stepping in four-byte increments while inside
the page. -/
def recordSlots (g : Geom) (f : Flash) (p : LogicalPage) : List (Nat × Record) :=
  scanSlots f (getPageStart g p + 2)
    (slotCount (getPageEnd g p) (getPageStart g p + 2))

/-- findEmptyAddress: address of the first EMPTY record slot, or the page
end when no slot is empty. -/
def findEmptyAddress (g : Geom) (f : Flash) (p : LogicalPage) : Nat :=
  match (recordSlots g f p).find? (fun ar => ar.2.status == Record.EMPTY) with
  | some ar => ar.1
  | none => getPageEnd g p

/-- findLastInvalidAddress: scan forward until the first EMPTY slot,
remembering the last INVALID slot seen; default is the page start. -/
def findLastInvalidAddress (g : Geom) (f : Flash) (p : LogicalPage) : Nat :=
  let scanned := (recordSlots g f p).takeWhile (fun ar => ar.2.status != Record.EMPTY)
  match (scanned.filter (fun ar => ar.2.status == Record.INVALID)).getLast? with
  | some ar => ar.1
  | none => getPageStart g p

/-- hasInvalidRecords. -/
def hasInvalidRecords (g : Geom) (f : Flash) (p : LogicalPage) : Bool :=
  findLastInvalidAddress g f p != getPageStart g p

/-- forEachValidRecord: yield records while their status is VALID, stopping
at the first record with any other status. -/
def validRecordsView (g : Geom) (f : Flash) (p : LogicalPage) : List (Nat × Record) :=
  (recordSlots g f p).takeWhile (fun ar => ar.2.status == Record.VALID)

/-- The four on-media bytes of a record (little-endian index, status byte,
data byte). -/
def recBytes (index status data : Nat) : List Nat :=
  [index % 256, index / 256 % 256, status % 256, data % 256]

/-- writeRecord: program a whole record at the first empty slot; fails when
fewer than four bytes remain in the page. -/
def writeRecord (g : Geom) (s : EE) (page : LogicalPage) (index data status : Nat) :
    Bool × EE × List FlashOp :=
  let address := findEmptyAddress g s.flash page
  if getPageEnd g page - address < 4 then (false, s, [])
  else
    (writeVerifies s.flash address (recBytes index status data),
     { s with flash := s.flash.write address (recBytes index status data) },
     [FlashOp.program address (recBytes index status data)])

/-- writeRecordStatus: program only the status byte (offset 2) of the record
at the given address. -/
def writeRecordStatus (g : Geom) (s : EE) (address status : Nat) :
    Bool × EE × List FlashOp :=
  (writeVerifies s.flash (address + 2) [status % 256],
   { s with flash := s.flash.write (address + 2) [status % 256] },
   [FlashOp.program (address + 2) [status % 256]])

/-- verifyPage: check that every byte of the page reads as erased. -/
def verifyPage (g : Geom) (f : Flash) (p : LogicalPage) : Bool :=
  (List.range (getPageSize g p)).all fun i =>
    f.byte (getPageStart g p + i) == FLASH_ERASED

/-- erasePage: erase the sector holding the page. -/
def erasePage (g : Geom) (s : EE) (p : LogicalPage) : EE × List FlashOp :=
  ({ s with flash := s.flash.eraseRegion (getPageStart g p) (getPageSize g p) },
   [FlashOp.eraseSector (getPageStart g p) (getPageSize g p)])

/-- Store a byte into the caller-supplied destination buffer. -/
def storeByte (buf : Nat → Nat) (j v : Nat) : Nat → Nat :=
  fun i => if i = j then v else buf i

/-- readRange: memset the first length destination bytes to 0xFF, then for
each valid record whose uint16 index lies in [startIndex, startIndex+length]
store its data at destination offset index - startIndex. -/
def readRange (g : Geom) (s : EE) (startIndex length : Nat) (buf0 : Nat → Nat) :
    Nat → Nat :=
  let buf1 : Nat → Nat := fun j => if j < length then FLASH_ERASED else buf0 j
  let endIndex := (startIndex + length) % 65536
  (validRecordsView g s.flash s.activePage).foldl
    (fun buf ar =>
      if startIndex ≤ ar.2.index ∧ ar.2.index ≤ endIndex then
        storeByte buf (ar.2.index - startIndex) ar.2.data
      else buf)
    buf1

/-- Phase A of writeRange: append an INVALID record for every position whose
existing value differs from the source byte, stopping on the first failed
append.  The iteration count src.length - i is passed as the recursion
argument so the loop is structural. -/
def phaseA (g : Geom) (startIndex : Nat) (src : List Nat) (existing : Nat → Nat)
    (s : EE) (success : Bool) (i : Nat) : Nat → Bool × EE × List FlashOp
  | 0 => (success, s, [])
  | fuel + 1 =>
    if success then
      if existing i ≠ src.getD i 0 then
        let step := writeRecord g s s.activePage ((startIndex + i) % 65536)
          (src.getD i 0) Record.INVALID
        let rest := phaseA g startIndex src existing step.2.1 step.1 (i + 1) fuel
        (rest.1, rest.2.1, step.2.2 ++ rest.2.2)
      else phaseA g startIndex src existing s success (i + 1) fuel
    else (success, s, [])

/-- Phase B of writeRange (forEachInvalidRecord with the committing
callback): walk backwards from the last invalid address while records are
INVALID, programming each status to VALID while success holds.  Each step
moves the address down by four, so an iteration budget of the starting
address is passed as the structural recursion argument; the walk always
stops on its own before the budget runs out. -/
def commitWalk (g : Geom) (startAddr : Nat) (s : EE) (success : Bool) (addr : Nat) :
    Nat → Bool × EE × List FlashOp
  | 0 => (success, s, [])
  | fuel + 1 =>
    if startAddr < addr then
      if (recordAt s.flash addr).status = Record.INVALID then
        if success then
          let step := writeRecordStatus g s addr Record.VALID
          let rest := commitWalk g startAddr step.2.1 step.1 (addr - 4) fuel
          (rest.1, rest.2.1, step.2.2 ++ rest.2.2)
        else commitWalk g startAddr s false (addr - 4) fuel
      else (success, s, [])
    else (success, s, [])

/-- One selection sweep of forEachSortedValidRecord: among valid records with
index at least prevPlus1 (previousIndex + 1), pick the smallest index, and
among duplicates of that index the one seen last; returns its address and
index. -/
def selectNext (g : Geom) (f : Flash) (page : LogicalPage) (prevPlus1 : Nat) :
    Option (Nat × Nat) :=
  (validRecordsView g f page).foldl
    (fun acc ar =>
      match acc with
      | none =>
        if ar.2.index ≤ 65535 ∧ prevPlus1 ≤ ar.2.index then some (ar.1, ar.2.index)
        else none
      | some ci =>
        if ar.2.index ≤ ci.2 ∧ prevPlus1 ≤ ar.2.index then some (ar.1, ar.2.index)
        else acc)
    none

/-- The copying loop of copyAllRecordsToPageExcept, driven by
forEachSortedValidRecord: repeatedly select the next valid record of the
source page in ascending index order and append it to the destination when
its index is outside [exceptStart, exceptEnd] and its data is not 0xFF.
Selected indices are bounded by 65535 and strictly increase, so a fuel of
65536 makes the structural recursion agree with the source loop. -/
def copySweep (g : Geom) (s : EE) (srcPage dstPage : LogicalPage)
    (exceptStart exceptEnd : Nat) (success : Bool) (prevPlus1 : Nat) :
    Nat → Bool × EE × List FlashOp
  | 0 => (success, s, [])
  | fuel + 1 =>
    match selectNext g s.flash srcPage prevPlus1 with
    | none => (success, s, [])
    | some ci =>
      let r := recordAt s.flash ci.1
      let step : Bool × EE × List FlashOp :=
        if (r.index < exceptStart ∨ exceptEnd < r.index) ∧ r.data ≠ FLASH_ERASED then
          if success then writeRecord g s dstPage r.index r.data Record.VALID
          else (false, s, [])
        else (success, s, [])
      let rest := copySweep g step.2.1 srcPage dstPage exceptStart exceptEnd step.1
        (ci.2 + 1) fuel
      (rest.1, rest.2.1, step.2.2 ++ rest.2.2)

/-- copyAllRecordsToPageExcept. -/
def copyAllRecordsToPageExcept (g : Geom) (s : EE) (srcPage dstPage : LogicalPage)
    (exceptIndexStart exceptIndexEnd : Nat) : Bool × EE × List FlashOp :=
  copySweep g s srcPage dstPage exceptIndexStart exceptIndexEnd true 0 65536

/-- The loop writing the pending range to the destination page during a
swap: append a VALID record for every source byte that is not 0xFF. -/
def swapNewLoop (g : Geom) (dest : LogicalPage) (startIndex : Nat) (src : List Nat)
    (s : EE) (success : Bool) (i : Nat) : Nat → Bool × EE × List FlashOp
  | 0 => (success, s, [])
  | fuel + 1 =>
    if success then
      if src.getD i 0 ≠ FLASH_ERASED then
        let step := writeRecord g s dest ((startIndex + i) % 65536)
          (src.getD i 0) Record.VALID
        let rest := swapNewLoop g dest startIndex src step.2.1 step.1 (i + 1) fuel
        (rest.1, rest.2.1, step.2.2 ++ rest.2.2)
      else swapNewLoop g dest startIndex src s success (i + 1) fuel
    else (success, s, [])

/-- One iteration of the swapPagesAndWrite retry loop: erase the destination
if it does not verify erased (or this is the retry), mark it COPY, copy all
records except the pending range, write the pending records, mark the
destination ACTIVE and the source INACTIVE, and on full success refresh the
cached page tags. -/
def swapOnce (g : Geom) (s : EE) (sourcePage destinationPage : LogicalPage)
    (startIndex : Nat) (src : List Nat) (forceErase : Bool) :
    Bool × EE × List FlashOp :=
  let e : EE × List FlashOp :=
    if !verifyPage g s.flash destinationPage || forceErase then
      erasePage g s destinationPage
    else (s, [])
  let w := writePageStatus g e.1 destinationPage PageHeader.COPY
  let c :=
    if w.1 then
      copyAllRecordsToPageExcept g w.2.1 sourcePage destinationPage startIndex
        ((startIndex + src.length) % 65536)
    else (false, w.2.1, [])
  let n :=
    if c.1 then swapNewLoop g destinationPage startIndex src c.2.1 true 0 src.length
    else (c.1, c.2.1, [])
  let a := if n.1 then writePageStatus g n.2.1 destinationPage PageHeader.ACTIVE
    else (n.1, n.2.1, [])
  let i := if a.1 then writePageStatus g a.2.1 sourcePage PageHeader.INACTIVE
    else (a.1, a.2.1, [])
  let ops := e.2 ++ w.2.2 ++ c.2.2 ++ n.2.2 ++ a.2.2 ++ i.2.2
  if i.1 then (true, updateActivePage g i.2.1, ops)
  else (false, i.2.1, ops)

/-- swapPagesAndWrite: try the swap, and on failure retry once with an
unconditional erase of the destination. -/
def swapPagesAndWrite (g : Geom) (s : EE) (startIndex : Nat) (src : List Nat) :
    Bool × EE × List FlashOp :=
  let sourcePage := s.activePage
  let destinationPage := s.alternatePage
  let t0 := swapOnce g s sourcePage destinationPage startIndex src false
  if t0.1 then (true, t0.2.1, t0.2.2)
  else
    let t1 := swapOnce g t0.2.1 sourcePage destinationPage startIndex src true
    (t1.1, t1.2.1, t0.2.2 ++ t1.2.2)

/-- writeRange: drop out-of-range writes; read the existing range; require
no pre-existing invalid records; append the changed bytes as INVALID
records; commit them to VALID walking backwards; on any failure fall back
to a page swap carrying the pending range. -/
def writeRange (g : Geom) (s : EE) (startIndex : Nat) (src : List Nat) :
    EE × List FlashOp :=
  if startIndex + src.length ≥ capacity g then (s, [])
  else
    let existing := readRange g s startIndex src.length (fun _ => 0)
    let resA := phaseA g startIndex src existing s
      (!hasInvalidRecords g s.flash s.activePage) 0 src.length
    let resB :=
      if resA.1 then
        commitWalk g (getPageStart g resA.2.1.activePage) resA.2.1 true
          (findLastInvalidAddress g resA.2.1.flash resA.2.1.activePage)
          (findLastInvalidAddress g resA.2.1.flash resA.2.1.activePage)
      else (false, resA.2.1, ([] : List FlashOp))
    if resB.1 then (resB.2.1, resA.2.2 ++ resB.2.2)
    else
      let resC := swapPagesAndWrite g resB.2.1 startIndex src
      (resC.2.1, resA.2.2 ++ resB.2.2 ++ resC.2.2)

/-- get (range form): readRange on the active page; a pure read issuing no
flash operations.  The size_t length is truncated to the uint16 parameter
of readRange. -/
def get (g : Geom) (s : EE) (index length : Nat) (buf0 : Nat → Nat) :
    (Nat → Nat) × EE × List FlashOp :=
  (readRange g s (index % 65536) (length % 65536) buf0, s, [])

/-- get (single-byte form): the byte the emulation reports for an index. -/
def getByte (g : Geom) (s : EE) (index : Nat) : Nat :=
  (get g s index 1 (fun _ => 0)).1 0

/-- put (range form): writeRange with the uint16-truncated arguments. -/
def put (g : Geom) (s : EE) (index : Nat) (src : List Nat) : EE × List FlashOp :=
  writeRange g s (index % 65536) (src.take (src.length % 65536))

/-- clear: erase both pages, mark Page1 ACTIVE, refresh the page tags. -/
def clear (g : Geom) (s : EE) : EE × List FlashOp :=
  let e1 := erasePage g s LogicalPage.Page1
  let e2 := erasePage g e1.1 LogicalPage.Page2
  let w := writePageStatus g e2.1 LogicalPage.Page1 PageHeader.ACTIVE
  (updateActivePage g w.2.1, e1.2 ++ e2.2 ++ w.2.2)

/-- init at boot: resolve the active page from the on-media statuses and
clear the media when no page qualifies. -/
def initEE (g : Geom) (f : Flash) : EE × List FlashOp :=
  let s := updateActivePage g
    { flash := f, activePage := .NoPage, alternatePage := .NoPage }
  if s.activePage = LogicalPage.NoPage then clear g s else (s, [])

/-- The authoritative value of a logical id following the specification
wording: the data of the last record with status VALID and this id that
occurs before the first record with a non-VALID status in the active
page's append order, and 0xFF when there is no such record. -/
def specAuthoritative (g : Geom) (f : Flash) (p : LogicalPage) (i : Nat) : Nat :=
  let appendOrder := (recordSlots g f p).map Prod.snd
  let beforeTorn := appendOrder.takeWhile (fun r => r.status == Record.VALID)
  match (beforeTorn.filter (fun r => r.index == i)).getLast? with
  | some r => r.data
  | none => 0xFF

end EEB

namespace EEB.RV

/-!
The record-oriented revision (`EEPROMEmulation` with `SectorHeader` /
`Header` in the middle of services/inc/eeprom_emulation_byte.h): only the
sector-status handling is needed, for the COPY/INACTIVE promotion of
`getActiveSector`.
-/

/-- LogicalSector of the record-oriented revision. -/
inductive LogicalSector where
  | None
  | Sector1
  | Sector2
deriving DecidableEq

/-- SectorHeader::ERASED. -/
def SECTOR_ERASED : Nat := 0xFFFF

/-- SectorHeader::COPY. -/
def SECTOR_COPY : Nat := 0x0FFF

/-- SectorHeader::ACTIVE. -/
def SECTOR_ACTIVE : Nat := 0x00FF

/-- SectorHeader::INACTIVE. -/
def SECTOR_INACTIVE : Nat := 0x000F

/-- getSectorSpan: the (first, last) offset pair of a sector; the default
span is empty. -/
def getSectorSpan (g : Geom) : LogicalSector → Nat × Nat
  | .Sector1 => (g.base1, g.base1 + g.size1)
  | .Sector2 => (g.base2, g.base2 + g.size2)
  | .None => (0, 0)

/-- readSectorStatus: the little-endian uint16 at the sector start. -/
def readSectorStatus (g : Geom) (f : Flash) (sec : LogicalSector) : Nat :=
  f.byte (getSectorSpan g sec).1 + 256 * f.byte ((getSectorSpan g sec).1 + 1)

/-- writeSectorStatus: program the two status bytes at the sector start. -/
def writeSectorStatus (g : Geom) (f : Flash) (sec : LogicalSector) (status : Nat) :
    Flash × List FlashOp :=
  (f.write (getSectorSpan g sec).1 (statusBytes status),
   [FlashOp.program (getSectorSpan g sec).1 (statusBytes status)])

/-- getActiveSector of the record-oriented revision: pick the first ACTIVE
sector; when one sector is COPY and the other INACTIVE, promote the COPY
sector to ACTIVE on media and return it; otherwise report no sector. -/
def getActiveSector (g : Geom) (f : Flash) :
    LogicalSector × Flash × List FlashOp :=
  let status1 := readSectorStatus g f .Sector1
  let status2 := readSectorStatus g f .Sector2
  if status1 = SECTOR_ACTIVE then (.Sector1, f, [])
  else if status2 = SECTOR_ACTIVE then (.Sector2, f, [])
  else if status1 = SECTOR_COPY ∧ status2 = SECTOR_INACTIVE then
    let w := writeSectorStatus g f .Sector1 SECTOR_ACTIVE
    (.Sector1, w.1, w.2)
  else if status1 = SECTOR_INACTIVE ∧ status2 = SECTOR_COPY then
    let w := writeSectorStatus g f .Sector2 SECTOR_ACTIVE
    (.Sector2, w.1, w.2)
  else (.None, f, [])

/-- getAlternateSector: the sector opposite the one getActiveSector
returns (with its side effects). -/
def getAlternateSector (g : Geom) (f : Flash) :
    LogicalSector × Flash × List FlashOp :=
  match getActiveSector g f with
  | (.Sector1, f1, o) => (.Sector2, f1, o)
  | (_, f1, o) => (.Sector1, f1, o)

end EEB.RV

namespace EEB

/-!
Well-formedness predicates and helper functions used by the theorems.
-/

/-- The default record used with List.getD. -/
def rec0 : Record := ⟨0, 0, 0⟩

/-- Address of record slot number k of a page: the page header occupies
two bytes and records are four bytes each. -/
def slotAddr (g : Geom) (p : LogicalPage) (k : Nat) : Nat :=
  getPageStart g p + 2 + 4 * k

/-- Number of record-slot iterations the forEachRecord loop makes on a
page. -/
def numSlots (g : Geom) (p : LogicalPage) : Nat :=
  slotCount (getPageEnd g p) (getPageStart g p + 2)

/-- The four bytes at address a encode the record r. -/
def RecordBytes (f : Flash) (a : Nat) (r : Record) : Prop :=
  f.byte a = r.index % 256 ∧ f.byte (a + 1) = r.index / 256 ∧
  f.byte (a + 2) = r.status ∧ f.byte (a + 3) = r.data

/-- A record value that can actually sit in an occupied slot: fields in
range and a status other than EMPTY. -/
def WFRec (r : Record) : Prop :=
  r.index < 65536 ∧ r.status < 256 ∧ r.status ≠ Record.EMPTY ∧ r.data < 256

instance (f : Flash) (a : Nat) (r : Record) : Decidable (RecordBytes f a r) := by
  unfold RecordBytes
  infer_instance

instance (r : Record) : Decidable (WFRec r) := by
  unfold WFRec
  infer_instance

/-- The record region of a page: the records recs sit in consecutive slots
from the start, at least one fully-contained empty slot follows, and every
byte after the records up to the page end is erased. -/
structure PageRecs (g : Geom) (f : Flash) (p : LogicalPage) (recs : List Record) : Prop where
  fits : 2 + 4 * recs.length + 4 ≤ getPageSize g p
  wfr : ∀ k < recs.length, WFRec (recs.getD k rec0)
  bytes : ∀ k < recs.length, RecordBytes f (slotAddr g p k) (recs.getD k rec0)
  tail : ∀ a < getPageEnd g p, slotAddr g p recs.length ≤ a → f.byte a = 0xFF

/-- Geometry sanity: pages start at address two or later, hold at least the
header, are at most 65536 bytes (so the capacity fits a uint16), and do
not overlap. -/
structure GeomWF (g : Geom) : Prop where
  b1 : 2 ≤ g.base1
  b2 : 2 ≤ g.base2
  s1lo : 2 ≤ g.size1
  s2lo : 2 ≤ g.size2
  s1hi : g.size1 ≤ 65536
  s2hi : g.size2 ≤ 65536
  disj : g.base1 + g.size1 ≤ g.base2 ∨ g.base2 + g.size2 ≤ g.base1

/-- A healthy post-boot state: page p is the cached active page, its
on-media status is ACTIVE (and page 1 is not ACTIVE when p is page 2, so
a re-boot selects p again), and its record region holds exactly the
records recs, all committed VALID. -/
structure ActiveState (g : Geom) (s : EE) (p : LogicalPage) (recs : List Record) : Prop where
  geom : GeomWF g
  hp : p = LogicalPage.Page1 ∨ p = LogicalPage.Page2
  act : s.activePage = p
  stat : readPageStatus g s.flash p = PageHeader.ACTIVE
  statOther : p = LogicalPage.Page2 →
    readPageStatus g s.flash LogicalPage.Page1 ≠ PageHeader.ACTIVE
  recsOK : PageRecs g s.flash p recs
  allValid : ∀ r ∈ recs, r.status = Record.VALID

/-- Positions i in [i0, i0+fuel) whose existing byte differs from the
source byte: the positions for which phase A appends a record. -/
def changedFrom (src : List Nat) (existing : Nat → Nat) : Nat → Nat → List Nat
  | _, 0 => []
  | i, fuel + 1 =>
    if existing i ≠ src.getD i 0 then i :: changedFrom src existing (i + 1) fuel
    else changedFrom src existing (i + 1) fuel

/-- The INVALID record phase A appends for position i. -/
def mkInv (startIndex : Nat) (src : List Nat) (i : Nat) : Record :=
  ⟨startIndex + i, Record.INVALID, src.getD i 0⟩

/-- The record of position i after its status was committed to VALID. -/
def mkVal (startIndex : Nat) (src : List Nat) (i : Nat) : Record :=
  ⟨startIndex + i, Record.VALID, src.getD i 0⟩

/-- A record with its status committed to VALID. -/
def setValid (r : Record) : Record := ⟨r.index, Record.VALID, r.data⟩

/-- The program operations phase A issues: one whole-record program per
changed position, in consecutive slots starting at slot number base. -/
def opsFor (g : Geom) (p : LogicalPage) (startIndex : Nat) (src : List Nat)
    (base : Nat) : List Nat → List FlashOp
  | [] => []
  | i :: rest =>
    FlashOp.program (slotAddr g p base)
      (recBytes (startIndex + i) Record.INVALID (src.getD i 0)) ::
      opsFor g p startIndex src (base + 1) rest

/-- The program operations phase B issues: one status-byte program per
appended record, from the last appended slot (base + c - 1) down to slot
base. -/
def opsFlip (g : Geom) (p : LogicalPage) (base : Nat) : Nat → List FlashOp
  | 0 => []
  | c + 1 =>
    FlashOp.program (slotAddr g p (base + c) + 2) [Record.VALID % 256] ::
      opsFlip g p base c

/-!
Concrete inputs used by the witnesses and counterexamples.
-/

/-- A small test geometry: two pages of 30 bytes at 100 and 200; its
capacity is seven logical bytes. -/
def gW : Geom := ⟨100, 30, 200, 30⟩

/-- Fully erased flash. -/
def fBlank : Flash := fun _ => 0xFF

/-- The state after booting on erased flash (init clears the media). -/
def sFresh : EE := (initEE gW fBlank).1

/-- A state with one committed record. -/
def sOne : EE := (put gW sFresh 1 [0xBB]).1

/-- Flash with page 1 ACTIVE holding a VALID record (id 1, data 0xBB)
followed by a torn INVALID record (id 5), page 2 erased. -/
def fTorn : Flash := fun a =>
  if a = 100 then 0xFF else if a = 101 then 0x00 else
  if a = 102 then 1 else if a = 103 then 0 else
  if a = 104 then 0x00 else if a = 105 then 0xBB else
  if a = 106 then 5 else if a = 107 then 0 else
  if a = 108 then 0x0F else if a = 109 then 0x11 else
  0xFF

/-- The state after booting on fTorn. -/
def sTorn : EE := (initEE gW fTorn).1

/-- Flash with page 1 ACTIVE holding a single VALID record with id 2 and
data 0xAB, page 2 erased. -/
def fOob : Flash := fun a =>
  if a = 100 then 0xFF else if a = 101 then 0x00 else
  if a = 102 then 2 else if a = 103 then 0 else
  if a = 104 then 0x00 else if a = 105 then 0xAB else
  0xFF

/-- The state after booting on fOob. -/
def sOob : EE := (initEE gW fOob).1

/-- Flash with page 1 INACTIVE and page 2 COPY (the crash window after a
completed copy of the record-oriented revision). -/
def fPromote : Flash := fun a =>
  if a = 100 then 0x0F else if a = 101 then 0x00 else
  if a = 200 then 0xFF else if a = 201 then 0x0F else
  0xFF

/-- Two flashes agree outside the record area of page p (on the page
header bytes and on everything outside the page, hence on the other
page). -/
def OutsideRecArea (g : Geom) (p : LogicalPage) (f fNew : Flash) : Prop :=
  ∀ a, (a < getPageStart g p + 2 ∨ getPageEnd g p ≤ a) → fNew.byte a = f.byte a

/-- The indices inside `src` whose byte differs from what the store
currently reads back (the records writeRange actually appends). -/
def chL (g : Geom) (s : EE) (startIndex : Nat) (src : List Nat) : List Nat :=
  changedFrom src (readRange g s startIndex src.length (fun _ => 0)) 0 src.length

/-- The complete operation trace of a direct (no-swap) writeRange with
`n` pre-existing records: phase-A appends followed by phase-B flips. -/
def wrOps (g : Geom) (s : EE) (p : LogicalPage) (startIndex : Nat) (src : List Nat)
    (n : Nat) : List FlashOp :=
  opsFor g p startIndex src n (chL g s startIndex src) ++
    opsFlip g p n (chL g s startIndex src).length

end EEB

namespace EEB

/-!
Basic byte and flash-effect lemmas.
-/

theorem byte_lt (f : Flash) (a : Nat) : f.byte a < 256 :=
  Nat.mod_lt _ (by norm_num)

theorem and255 (b : Nat) (h : b < 256) : 255 &&& b = b := by
  have h2 : b &&& 255 = b % 256 := by
    simpa using Nat.and_pow_two_sub_one_eq_mod b 8
  rw [Nat.and_comm, h2, Nat.mod_eq_of_lt h]

theorem write_byte_out (f : Flash) (addr : Nat) (bytes : List Nat) (a : Nat)
    (h : a < addr ∨ addr + bytes.length ≤ a) :
    (f.write addr bytes).byte a = f.byte a := by
  have hno : ¬ (addr ≤ a ∧ a < addr + bytes.length) := by omega
  simp [Flash.write, Flash.byte, hno]

theorem write_byte_in (f : Flash) (addr : Nat) (bytes : List Nat) (a : Nat)
    (h1 : addr ≤ a) (h2 : a < addr + bytes.length) :
    (f.write addr bytes).byte a = (f.byte a) &&& (bytes.getD (a - addr) 0 % 256) := by
  have hin : addr ≤ a ∧ a < addr + bytes.length := ⟨h1, h2⟩
  have hlt : (f.byte a) &&& (bytes.getD (a - addr) 0 % 256) < 256 :=
    lt_of_le_of_lt Nat.and_le_right (Nat.mod_lt _ (by norm_num))
  show (f.write addr bytes) a % 256 = _
  simp only [Flash.write, hin, if_pos, and_self]
  exact Nat.mod_eq_of_lt hlt

theorem write_byte_in_erased (f : Flash) (addr : Nat) (bytes : List Nat) (a : Nat)
    (h1 : addr ≤ a) (h2 : a < addr + bytes.length) (hFF : f.byte a = 0xFF) :
    (f.write addr bytes).byte a = bytes.getD (a - addr) 0 % 256 := by
  rw [write_byte_in f addr bytes a h1 h2, hFF]
  exact and255 _ (Nat.mod_lt _ (by norm_num))

theorem writeVerifies_of_erased (f : Flash) (addr : Nat) (bytes : List Nat)
    (h : ∀ i < bytes.length, f.byte (addr + i) = 0xFF) :
    writeVerifies f addr bytes = true := by
  unfold writeVerifies
  rw [List.all_eq_true]
  intro i hi
  rw [List.mem_range] at hi
  rw [h i hi, and255 _ (Nat.mod_lt _ (by norm_num))]
  exact beq_self_eq_true _

theorem writeVerifies_zero (f : Flash) (addr : Nat) :
    writeVerifies f addr [Record.VALID % 256] = true := by
  unfold writeVerifies
  simp [Record.VALID]

theorem eraseRegion_byte_in (f : Flash) (base size a : Nat)
    (h1 : base ≤ a) (h2 : a < base + size) :
    (f.eraseRegion base size).byte a = 0xFF := by
  have hin : base ≤ a ∧ a < base + size := ⟨h1, h2⟩
  simp [Flash.eraseRegion, Flash.byte, hin]

theorem eraseRegion_byte_out (f : Flash) (base size a : Nat)
    (h : a < base ∨ base + size ≤ a) :
    (f.eraseRegion base size).byte a = f.byte a := by
  have hno : ¬ (base ≤ a ∧ a < base + size) := by omega
  simp [Flash.eraseRegion, Flash.byte, hno]

/-!
Structure of the record-slot list.
-/

theorem pageEnd_eq (g : Geom) (p : LogicalPage) :
    getPageEnd g p = getPageStart g p + getPageSize g p := by
  cases p <;> rfl

theorem scanSlots_map (f : Flash) (n : Nat) : ∀ addr : Nat,
    scanSlots f addr n =
      (List.range n).map (fun k => (addr + 4 * k, recordAt f (addr + 4 * k))) := by
  induction n with
  | zero => intro addr; simp [scanSlots]
  | succ n ih =>
    intro addr
    rw [List.range_succ_eq_map, scanSlots, ih (addr + 4)]
    simp only [List.map_cons, List.map_map]
    congr 1
    apply List.map_congr_left
    intro k _
    have h4 : addr + 4 + 4 * k = addr + 4 * (k + 1) := by omega
    simp [Function.comp, h4, Nat.succ_eq_add_one]

theorem recordSlots_eq (g : Geom) (f : Flash) (p : LogicalPage) :
    recordSlots g f p =
      (List.range (numSlots g p)).map
        (fun k => (slotAddr g p k, recordAt f (slotAddr g p k))) := by
  unfold recordSlots numSlots slotAddr
  rw [scanSlots_map]

theorem map_range_append {α : Type} (La Lb : Nat) (fn : Nat → α) :
    (List.range (La + Lb)).map fn =
      (List.range La).map fn ++ (List.range Lb).map (fun k => fn (La + k)) := by
  rw [List.range_add, List.map_append, List.map_map]
  rfl

theorem getLast?_map_range {α : Type} (fn : Nat → α) (n : Nat) (h : n ≠ 0) :
    ((List.range n).map fn).getLast? = some (fn (n - 1)) := by
  cases n with
  | zero => exact absurd rfl h
  | succ m =>
    rw [List.range_succ, List.map_append]
    simp [List.getLast?_append]

theorem takeWhile_append_cons {α : Type} (p : α → Bool) (l1 : List α) (x : α)
    (l2 : List α) (h1 : ∀ a ∈ l1, p a = true) (h2 : p x = false) :
    (l1 ++ x :: l2).takeWhile p = l1 := by
  induction l1 with
  | nil => simp [List.takeWhile_cons, h2]
  | cons a l ih =>
    have ha : p a = true := h1 a (by simp)
    simp only [List.cons_append, List.takeWhile_cons, ha, if_true]
    rw [ih (fun b hb => h1 b (by simp [hb]))]

theorem recordAt_of_bytes {f : Flash} {a : Nat} {r : Record}
    (hb : RecordBytes f a r) (hw : WFRec r) : recordAt f a = r := by
  obtain ⟨h0, h1, h2, h3⟩ := hb
  have hidx : r.index % 256 + 256 * (r.index / 256) = r.index := Nat.mod_add_div _ _
  cases r with
  | mk index status data =>
    simp only at h0 h1 h2 h3 hidx
    simp only [recordAt, h0, h1, h2, h3, hidx]

end EEB

namespace EEB

/-!
Structure of the record region of a well-formed page.
-/

theorem getD_status_valid {recs : List Record}
    (hv : ∀ r ∈ recs, r.status = Record.VALID) (k : Nat) (hk : k < recs.length) :
    (recs.getD k rec0).status = Record.VALID := by
  rw [List.getD_eq_getElem recs rec0 hk]
  exact hv _ (List.getElem_mem hk)

theorem numSlots_ge {g : Geom} {f : Flash} {p : LogicalPage} {recs : List Record}
    (h : PageRecs g f p recs) : recs.length + 1 ≤ numSlots g p := by
  have hfits := h.fits
  unfold numSlots slotCount
  rw [pageEnd_eq]
  have hsub : getPageStart g p + getPageSize g p - (getPageStart g p + 2) =
      getPageSize g p - 2 := by omega
  rw [hsub, Nat.le_div_iff_mul_le (by norm_num)]
  omega

theorem emptySlot_record {g : Geom} {f : Flash} {p : LogicalPage} {recs : List Record}
    (h : PageRecs g f p recs) :
    recordAt f (slotAddr g p recs.length) = Record.mk 0xFFFF 0xFF 0xFF := by
  have hfits := h.fits
  have hend : getPageEnd g p = getPageStart g p + getPageSize g p := pageEnd_eq g p
  have hb : ∀ i < 4, f.byte (slotAddr g p recs.length + i) = 0xFF := by
    intro i hi
    apply h.tail
    · unfold slotAddr at *
      omega
    · omega
  unfold recordAt
  have h0 := hb 0 (by norm_num)
  have h1 := hb 1 (by norm_num)
  have h2 := hb 2 (by norm_num)
  have h3 := hb 3 (by norm_num)
  rw [Nat.add_zero] at h0
  rw [h0, h1, h2, h3]

theorem recordSlots_split {g : Geom} {f : Flash} {p : LogicalPage} {recs : List Record}
    (h : PageRecs g f p recs) :
    ∃ rest, recordSlots g f p =
      (List.range recs.length).map (fun k => (slotAddr g p k, recs.getD k rec0)) ++
      (slotAddr g p recs.length, Record.mk 0xFFFF 0xFF 0xFF) :: rest := by
  have hns := numSlots_ge h
  obtain ⟨t, ht⟩ := Nat.exists_eq_add_of_le hns
  have ht2 : numSlots g p = recs.length + (1 + t) := by omega
  rw [recordSlots_eq, ht2, map_range_append]
  have hpre : (List.range recs.length).map
        (fun k => (slotAddr g p k, recordAt f (slotAddr g p k))) =
      (List.range recs.length).map (fun k => (slotAddr g p k, recs.getD k rec0)) := by
    apply List.map_congr_left
    intro k hk
    rw [List.mem_range] at hk
    rw [recordAt_of_bytes (h.bytes k hk) (h.wfr k hk)]
  rw [hpre]
  refine ⟨(List.range t).map
    (fun k => (slotAddr g p (recs.length + (1 + k)),
      recordAt f (slotAddr g p (recs.length + (1 + k))))), ?_⟩
  congr 1
  rw [show (1 : Nat) + t = t + 1 from by omega, List.range_succ_eq_map]
  simp only [List.map_cons, List.map_map]
  congr 1
  · rw [Nat.add_zero, emptySlot_record h]
  · apply List.map_congr_left
    intro k _
    simp only [Function.comp_apply, Nat.succ_eq_add_one]
    have hsh : recs.length + (1 + k) = recs.length + (k + 1) := by omega
    rw [hsh]

theorem findEmptyAddress_eq {g : Geom} {f : Flash} {p : LogicalPage} {recs : List Record}
    (h : PageRecs g f p recs) :
    findEmptyAddress g f p = slotAddr g p recs.length := by
  obtain ⟨rest, hsplit⟩ := recordSlots_split h
  unfold findEmptyAddress
  rw [hsplit, List.find?_append]
  have hnone : ((List.range recs.length).map
      (fun k => (slotAddr g p k, recs.getD k rec0))).find?
      (fun ar => ar.2.status == Record.EMPTY) = none := by
    rw [List.find?_eq_none]
    intro x hx
    simp only [List.mem_map, List.mem_range] at hx
    obtain ⟨k, hk, rfl⟩ := hx
    have hne := (h.wfr k hk).2.2.1
    simpa using hne
  rw [hnone, List.find?_cons_of_pos _ (by simp [Record.EMPTY])]
  simp

theorem validView_of_allValid {g : Geom} {f : Flash} {p : LogicalPage} {recs : List Record}
    (h : PageRecs g f p recs)
    (hv : ∀ k < recs.length, (recs.getD k rec0).status = Record.VALID) :
    validRecordsView g f p =
      (List.range recs.length).map (fun k => (slotAddr g p k, recs.getD k rec0)) := by
  obtain ⟨rest, hsplit⟩ := recordSlots_split h
  unfold validRecordsView
  rw [hsplit]
  apply takeWhile_append_cons
  · intro ar har
    simp only [List.mem_map, List.mem_range] at har
    obtain ⟨k, hk, rfl⟩ := har
    exact beq_iff_eq.mpr (hv k hk)
  · simp [Record.VALID, Record.EMPTY]

theorem validView_cut {g : Geom} {f : Flash} {p : LogicalPage}
    {va : List Record} {r : Record} {vb : List Record}
    (h : PageRecs g f p (va ++ r :: vb))
    (hva : ∀ k < va.length, (va.getD k rec0).status = Record.VALID)
    (hr : r.status ≠ Record.VALID) :
    validRecordsView g f p =
      (List.range va.length).map (fun k => (slotAddr g p k, va.getD k rec0)) := by
  obtain ⟨rest, hsplit⟩ := recordSlots_split h
  unfold validRecordsView
  rw [hsplit]
  have hlen : (va ++ r :: vb).length = va.length + (1 + vb.length) := by
    simp only [List.length_append, List.length_cons]
    omega
  rw [hlen, map_range_append]
  have hpre : (List.range va.length).map
        (fun k => (slotAddr g p k, (va ++ r :: vb).getD k rec0)) =
      (List.range va.length).map (fun k => (slotAddr g p k, va.getD k rec0)) := by
    apply List.map_congr_left
    intro k hk
    rw [List.mem_range] at hk
    rw [List.getD_append _ _ _ _ hk]
  rw [hpre]
  have hmid : (List.range (1 + vb.length)).map
        (fun k => (slotAddr g p (va.length + k), (va ++ r :: vb).getD (va.length + k) rec0)) =
      (slotAddr g p va.length, r) ::
        (List.range vb.length).map
          (fun k => (slotAddr g p (va.length + (1 + k)),
            (va ++ r :: vb).getD (va.length + (1 + k)) rec0)) := by
    rw [show (1 : Nat) + vb.length = vb.length + 1 from by omega, List.range_succ_eq_map]
    simp only [List.map_cons, List.map_map]
    congr 1
    · rw [Nat.add_zero, List.getD_append_right _ _ _ _ (by omega)]
      simp
    · apply List.map_congr_left
      intro k _
      simp only [Function.comp_apply, Nat.succ_eq_add_one]
      have hsh : va.length + (1 + k) = va.length + (k + 1) := by omega
      rw [hsh]
  rw [hmid, List.append_assoc, List.cons_append]
  apply takeWhile_append_cons
  · intro ar har
    simp only [List.mem_map, List.mem_range] at har
    obtain ⟨k, hk, rfl⟩ := har
    exact beq_iff_eq.mpr (hva k hk)
  · rw [beq_eq_false_iff_ne]
    exact hr

end EEB

namespace EEB

/-!
Locating invalid records.
-/

theorem getLast?_filter_map_range {α : Type} (fn : Nat → α) (pr : α → Bool)
    (n m : Nat) (hm : m < n) (hpm : pr (fn m) = true)
    (hafter : ∀ k, m < k → k < n → pr (fn k) = false) :
    (((List.range n).map fn).filter pr).getLast? = some (fn m) := by
  have hn : n = (m + 1) + (n - (m + 1)) := by omega
  rw [hn, map_range_append, List.filter_append]
  have hnil : ((List.range (n - (m + 1))).map (fun k => fn (m + 1 + k))).filter pr = [] := by
    rw [List.filter_eq_nil_iff]
    intro x hx
    simp only [List.mem_map, List.mem_range] at hx
    obtain ⟨k, hk, rfl⟩ := hx
    rw [hafter (m + 1 + k) (by omega) (by omega)]
    simp
  rw [hnil, List.append_nil, List.range_succ, List.map_append, List.filter_append]
  simp [List.getLast?_append, hpm]

theorem scanned_eq_full {g : Geom} {f : Flash} {p : LogicalPage} {recs : List Record}
    (h : PageRecs g f p recs) :
    (recordSlots g f p).takeWhile (fun ar => ar.2.status != Record.EMPTY) =
      (List.range recs.length).map (fun k => (slotAddr g p k, recs.getD k rec0)) := by
  obtain ⟨rest, hsplit⟩ := recordSlots_split h
  rw [hsplit]
  apply takeWhile_append_cons
  · intro ar har
    simp only [List.mem_map, List.mem_range] at har
    obtain ⟨k, hk, rfl⟩ := har
    have hne := (h.wfr k hk).2.2.1
    simpa using hne
  · simp [Record.EMPTY]

theorem findLastInvalid_of_none {g : Geom} {f : Flash} {p : LogicalPage}
    {recs : List Record} (h : PageRecs g f p recs)
    (hnv : ∀ k < recs.length, (recs.getD k rec0).status ≠ Record.INVALID) :
    findLastInvalidAddress g f p = getPageStart g p := by
  unfold findLastInvalidAddress
  rw [scanned_eq_full h]
  have hnil : ((List.range recs.length).map
      (fun k => (slotAddr g p k, recs.getD k rec0))).filter
      (fun ar => ar.2.status == Record.INVALID) = [] := by
    rw [List.filter_eq_nil_iff]
    intro x hx
    simp only [List.mem_map, List.mem_range] at hx
    obtain ⟨k, hk, rfl⟩ := hx
    simpa using hnv k hk
  simp only [hnil, List.getLast?_nil]

theorem hasInvalidRecords_eq_false {g : Geom} {f : Flash} {p : LogicalPage}
    {recs : List Record} (h : PageRecs g f p recs)
    (hnv : ∀ k < recs.length, (recs.getD k rec0).status ≠ Record.INVALID) :
    hasInvalidRecords g f p = false := by
  unfold hasInvalidRecords
  rw [findLastInvalid_of_none h hnv]
  simp

theorem findLastInvalid_of_last {g : Geom} {f : Flash} {p : LogicalPage}
    {recs : List Record} (h : PageRecs g f p recs) (m : Nat) (hm : m < recs.length)
    (hinv : (recs.getD m rec0).status = Record.INVALID)
    (hafter : ∀ k, m < k → k < recs.length → (recs.getD k rec0).status ≠ Record.INVALID) :
    findLastInvalidAddress g f p = slotAddr g p m := by
  unfold findLastInvalidAddress
  rw [scanned_eq_full h]
  simp only [getLast?_filter_map_range (fun k => (slotAddr g p k, recs.getD k rec0))
    (fun ar => ar.2.status == Record.INVALID) recs.length m hm
    (beq_iff_eq.mpr hinv)
    (fun k h1 h2 => by rw [beq_eq_false_iff_ne]; exact hafter k h1 h2)]

end EEB

namespace EEB

/-!
Effect of appending a record and of committing a status byte.
-/

theorem getD_set_eq {l : List Record} {k : Nat} (x : Record) (hk : k < l.length) :
    (l.set k x).getD k rec0 = x := by
  simp [List.getD_eq_getElem?_getD, List.getElem?_set_self, hk]

theorem getD_set_ne {l : List Record} {k j : Nat} (x : Record) (h : k ≠ j) :
    (l.set k x).getD j rec0 = l.getD j rec0 := by
  simp [List.getD_eq_getElem?_getD, List.getElem?_set_ne h]

theorem recBytes_length (index status data : Nat) :
    (recBytes index status data).length = 4 := rfl

theorem pageRecs_append {g : Geom} {f : Flash} {p : LogicalPage} {recs : List Record}
    (h : PageRecs g f p recs) {r : Record} (hr : WFRec r)
    (hfits : 2 + 4 * (recs.length + 1) + 4 ≤ getPageSize g p) :
    writeVerifies f (slotAddr g p recs.length) (recBytes r.index r.status r.data) = true ∧
    PageRecs g (f.write (slotAddr g p recs.length) (recBytes r.index r.status r.data)) p
      (recs ++ [r]) ∧
    (∀ a, a < slotAddr g p recs.length ∨ slotAddr g p recs.length + 4 ≤ a →
      (f.write (slotAddr g p recs.length) (recBytes r.index r.status r.data)).byte a =
        f.byte a) := by
  have hend : getPageEnd g p = getPageStart g p + getPageSize g p := pageEnd_eq g p
  have hfits0 := h.fits
  have hFF : ∀ i < 4, f.byte (slotAddr g p recs.length + i) = 0xFF := by
    intro i hi
    apply h.tail
    · unfold slotAddr at *; omega
    · omega
  have hpres : ∀ a, a < slotAddr g p recs.length ∨ slotAddr g p recs.length + 4 ≤ a →
      (f.write (slotAddr g p recs.length) (recBytes r.index r.status r.data)).byte a =
        f.byte a := by
    intro a ha
    apply write_byte_out
    rw [recBytes_length]
    omega
  obtain ⟨hidx, hst, hsne, hdat⟩ := hr
  have hwrite : ∀ i < 4,
      (f.write (slotAddr g p recs.length) (recBytes r.index r.status r.data)).byte
        (slotAddr g p recs.length + i) =
        (recBytes r.index r.status r.data).getD i 0 % 256 := by
    intro i hi
    rw [write_byte_in_erased f _ _ _ (by omega) (by rw [recBytes_length]; omega) (hFF i hi)]
    have hsub : slotAddr g p recs.length + i - slotAddr g p recs.length = i := by omega
    rw [hsub]
  refine ⟨?_, ?_, hpres⟩
  · apply writeVerifies_of_erased
    rw [recBytes_length]
    exact hFF
  constructor
  · simp only [List.length_append, List.length_cons, List.length_nil]
    omega
  · intro k hk
    simp only [List.length_append, List.length_cons, List.length_nil] at hk
    by_cases hlt : k < recs.length
    · rw [List.getD_append _ _ _ _ hlt]
      exact h.wfr k hlt
    · have hkL : k = recs.length := by omega
      subst hkL
      rw [List.getD_append_right _ _ _ _ (by omega), Nat.sub_self]
      exact ⟨hidx, hst, hsne, hdat⟩
  · intro k hk
    simp only [List.length_append, List.length_cons, List.length_nil] at hk
    by_cases hlt : k < recs.length
    · rw [List.getD_append _ _ _ _ hlt]
      obtain ⟨b0, b1, b2, b3⟩ := h.bytes k hlt
      have hlo : ∀ i, i ≤ 3 → slotAddr g p k + i < slotAddr g p recs.length := by
        intro i hi
        unfold slotAddr at *
        omega
      refine ⟨?_, ?_, ?_, ?_⟩
      · have := hpres (slotAddr g p k) (Or.inl (by simpa using hlo 0 (by omega)))
        rw [this]; exact b0
      · rw [hpres _ (Or.inl (hlo 1 (by omega)))]; exact b1
      · rw [hpres _ (Or.inl (hlo 2 (by omega)))]; exact b2
      · rw [hpres _ (Or.inl (hlo 3 (by omega)))]; exact b3
    · have hkL : k = recs.length := by omega
      subst hkL
      rw [List.getD_append_right _ _ _ _ (by omega), Nat.sub_self]
      have e0 := hwrite 0 (by omega)
      have e1 := hwrite 1 (by omega)
      have e2 := hwrite 2 (by omega)
      have e3 := hwrite 3 (by omega)
      rw [Nat.add_zero] at e0
      refine ⟨?_, ?_, ?_, ?_⟩
      · rw [e0]
        show r.index % 256 % 256 = r.index % 256
        omega
      · rw [e1]
        show r.index / 256 % 256 % 256 = r.index / 256
        omega
      · rw [e2]
        show r.status % 256 % 256 = r.status
        omega
      · rw [e3]
        show r.data % 256 % 256 = r.data
        omega
  · intro a haEnd haGe
    simp only [List.length_append, List.length_cons, List.length_nil] at haGe
    rw [hpres a (Or.inr (by unfold slotAddr at *; omega))]
    apply h.tail a haEnd
    unfold slotAddr at *
    omega

theorem pageRecs_flip {g : Geom} {f : Flash} {p : LogicalPage} {recs : List Record}
    (h : PageRecs g f p recs) (k : Nat) (hk : k < recs.length) :
    PageRecs g (f.write (slotAddr g p k + 2) [Record.VALID % 256]) p
      (recs.set k (setValid (recs.getD k rec0))) ∧
    (∀ a, a ≠ slotAddr g p k + 2 →
      (f.write (slotAddr g p k + 2) [Record.VALID % 256]).byte a = f.byte a) := by
  have hpres : ∀ a, a ≠ slotAddr g p k + 2 →
      (f.write (slotAddr g p k + 2) [Record.VALID % 256]).byte a = f.byte a := by
    intro a ha
    apply write_byte_out
    simp only [List.length_cons, List.length_nil]
    omega
  have hflip : (f.write (slotAddr g p k + 2) [Record.VALID % 256]).byte
      (slotAddr g p k + 2) = 0 := by
    rw [write_byte_in f _ _ _ (by omega) (by simp)]
    rw [Nat.sub_self]
    show f.byte (slotAddr g p k + 2) &&& (Record.VALID % 256 % 256) = 0
    show f.byte (slotAddr g p k + 2) &&& 0 = 0
    exact Nat.and_zero _
  refine ⟨?_, hpres⟩
  constructor
  · rw [List.length_set]
    exact h.fits
  · intro j hj
    rw [List.length_set] at hj
    by_cases hjk : k = j
    · subst hjk
      rw [getD_set_eq _ hj]
      obtain ⟨hidx, hst, _, hdat⟩ := h.wfr k hj
      exact ⟨hidx, by norm_num [setValid, Record.VALID], by norm_num [setValid, Record.VALID, Record.EMPTY], hdat⟩
    · rw [getD_set_ne _ hjk]
      exact h.wfr j hj
  · intro j hj
    rw [List.length_set] at hj
    by_cases hjk : k = j
    · subst hjk
      rw [getD_set_eq _ hj]
      obtain ⟨b0, b1, b2, b3⟩ := h.bytes k hj
      refine ⟨?_, ?_, ?_, ?_⟩
      · rw [hpres _ (by omega)]; exact b0
      · rw [hpres _ (by omega)]; exact b1
      · exact hflip
      · rw [hpres _ (by omega)]; exact b3
    · rw [getD_set_ne _ hjk]
      obtain ⟨b0, b1, b2, b3⟩ := h.bytes j hj
      have hne : ∀ i, i ≤ 3 → slotAddr g p j + i ≠ slotAddr g p k + 2 := by
        intro i hi
        unfold slotAddr
        omega
      refine ⟨?_, ?_, ?_, ?_⟩
      · have := hpres (slotAddr g p j) (by simpa using hne 0 (by omega))
        rw [this]; exact b0
      · rw [hpres _ (hne 1 (by omega))]; exact b1
      · rw [hpres _ (hne 2 (by omega))]; exact b2
      · rw [hpres _ (hne 3 (by omega))]; exact b3
  · intro a haEnd haGe
    rw [List.length_set] at haGe
    have hne : a ≠ slotAddr g p k + 2 := by
      unfold slotAddr at *
      omega
    rw [hpres a hne]
    exact h.tail a haEnd haGe

end EEB

namespace EEB

/-!
Page-status reads under writes confined to the record area, and the
behaviour of readRange as a fold over the valid-record view.
-/

theorem readPageStatus_congr {g : Geom} {p : LogicalPage} (hg : GeomWF g)
    (hp : p = LogicalPage.Page1 ∨ p = LogicalPage.Page2) {f fN : Flash}
    (hpres : OutsideRecArea g p f fN) :
    ∀ q, readPageStatus g fN q = readPageStatus g f q := by
  intro q
  obtain ⟨hb1, hb2, hs1, hs2, _, _, hdisj⟩ := hg
  unfold readPageStatus
  have hq : ∀ i, i ≤ 1 → fN.byte (getPageStart g q + i) = f.byte (getPageStart g q + i) := by
    intro i hi
    apply hpres
    rcases hp with rfl | rfl <;> cases q <;>
      simp only [getPageStart, getPageEnd] at * <;> omega
  have h0 := hq 0 (by omega)
  rw [Nat.add_zero] at h0
  rw [h0, hq 1 (by omega)]

theorem status_bytes_outside {g : Geom} {p : LogicalPage} {f fN : Flash}
    (h1 : ∀ a, a < getPageStart g p + 2 → fN.byte a = f.byte a)
    (h2 : ∀ a, getPageEnd g p ≤ a → fN.byte a = f.byte a) :
    OutsideRecArea g p f fN := by
  intro a ha
  rcases ha with ha | ha
  · exact h1 a ha
  · exact h2 a ha

theorem outsideRecArea_refl {g : Geom} {p : LogicalPage} (f : Flash) :
    OutsideRecArea g p f f := fun _ _ => rfl

theorem outsideRecArea_trans {g : Geom} {p : LogicalPage} {f1 f2 f3 : Flash}
    (h12 : OutsideRecArea g p f1 f2) (h23 : OutsideRecArea g p f2 f3) :
    OutsideRecArea g p f1 f3 := fun a ha => (h23 a ha).trans (h12 a ha)

theorem readRange_congr_states {g : Geom} {s1 s2 : EE}
    (hv : validRecordsView g s1.flash s1.activePage =
      validRecordsView g s2.flash s2.activePage)
    (startIndex n : Nat) (buf0 : Nat → Nat) :
    readRange g s1 startIndex n buf0 = readRange g s2 startIndex n buf0 := by
  unfold readRange
  rw [hv]

theorem readRange_view_append {g : Geom} {s1 s2 : EE} {extra : List (Nat × Record)}
    (hv : validRecordsView g s2.flash s2.activePage =
      validRecordsView g s1.flash s1.activePage ++ extra)
    (startIndex n : Nat) (buf0 : Nat → Nat) :
    readRange g s2 startIndex n buf0 =
      List.foldl
        (fun buf ar =>
          if startIndex ≤ ar.2.index ∧ ar.2.index ≤ (startIndex + n) % 65536 then
            storeByte buf (ar.2.index - startIndex) ar.2.data
          else buf)
        (readRange g s1 startIndex n buf0) extra := by
  unfold readRange
  rw [hv, List.foldl_append]

theorem range_map_getD {α β : Type} (d : α) (fn : α → β) : ∀ l : List α,
    (List.range l.length).map (fun c => fn (l.getD c d)) = l.map fn := by
  intro l
  induction l with
  | nil => simp
  | cons x xs ih =>
    rw [List.length_cons, List.range_succ_eq_map]
    simp only [List.map_cons, List.map_map]
    congr 1

theorem fold_store_new (startIndex n : Nat) (src : List Nat)
    (hn : startIndex + n < 65536) : ∀ (idxs : List Nat) (buf : Nat → Nat) (j : Nat),
    (∀ i ∈ idxs, i < n) → j < n →
    List.foldl
      (fun buf r =>
        if startIndex ≤ Record.index r ∧ Record.index r ≤ (startIndex + n) % 65536 then
          storeByte buf (r.index - startIndex) r.data
        else buf)
      buf (idxs.map (mkVal startIndex src)) j =
      if j ∈ idxs then src.getD j 0 else buf j := by
  intro idxs
  induction idxs with
  | nil => intro buf j _ _; simp
  | cons i rest ih =>
    intro buf j hlt hj
    have hi : i < n := hlt i (by simp)
    have hidxeq : (mkVal startIndex src i).index = startIndex + i := rfl
    have hcond : startIndex ≤ (mkVal startIndex src i).index ∧
        (mkVal startIndex src i).index ≤ (startIndex + n) % 65536 := by
      rw [Nat.mod_eq_of_lt hn, hidxeq]
      omega
    rw [List.map_cons, List.foldl_cons, if_pos hcond]
    rw [ih _ j (fun x hx => hlt x (by simp [hx])) hj]
    have hsub : (mkVal startIndex src i).index - startIndex = i := by
      rw [hidxeq]; omega
    by_cases hjr : j ∈ rest
    · rw [if_pos hjr, if_pos (show j ∈ i :: rest by simp [hjr])]
    · rw [if_neg hjr]
      simp only [storeByte]
      rw [hsub]
      by_cases hji : j = i
      · rw [if_pos hji, if_pos (show j ∈ i :: rest by simp [hji])]
        have hdata : (mkVal startIndex src i).data = src.getD i 0 := rfl
        rw [hdata, hji]
      · rw [if_neg hji, if_neg (show ¬ j ∈ i :: rest by simp [hji, hjr])]

theorem fold_no_store (startIndex endIdx j : Nat) : ∀ (l : List (Nat × Record)) (buf : Nat → Nat),
    (∀ ar ∈ l, ¬(startIndex ≤ ar.2.index ∧ ar.2.index ≤ endIdx ∧
      ar.2.index - startIndex = j)) →
    List.foldl
      (fun buf ar =>
        if startIndex ≤ ar.2.index ∧ ar.2.index ≤ endIdx then
          storeByte buf (ar.2.index - startIndex) ar.2.data
        else buf)
      buf l j = buf j := by
  intro l
  induction l with
  | nil => intro buf _; rfl
  | cons ar rest ih =>
    intro buf hno
    rw [List.foldl_cons]
    rw [ih _ (fun x hx => hno x (by simp [hx]))]
    by_cases hc : startIndex ≤ ar.2.index ∧ ar.2.index ≤ endIdx
    · rw [if_pos hc]
      unfold storeByte
      have hne : ar.2.index - startIndex ≠ j := by
        have := hno ar (by simp)
        tauto
      simp [Ne.symm hne]
    · rw [if_neg hc]

end EEB

namespace EEB

/-!
The value readRange reports at destination offset zero: the data of the
last valid record with the requested index.
-/

theorem fold_pos0 (i : Nat) : ∀ (l : List (Nat × Record)) (buf : Nat → Nat),
    (∀ ar ∈ l, ar.2.index < 65535) →
    List.foldl
      (fun buf ar =>
        if i ≤ ar.2.index ∧ ar.2.index ≤ (i + 1) % 65536 then
          storeByte buf (ar.2.index - i) ar.2.data
        else buf)
      buf l 0 =
      (match ((l.map Prod.snd).filter (fun r => r.index == i)).getLast? with
        | some r => r.data
        | none => buf 0) := by
  intro l
  induction l using List.reverseRecOn with
  | nil => intro buf _; rfl
  | append_singleton l ar ih =>
    intro buf hbound
    rw [List.foldl_append, List.foldl_cons, List.foldl_nil]
    rw [List.map_append, List.filter_append]
    simp only [List.map_cons, List.map_nil, List.filter_cons, List.filter_nil]
    have hb : ar.2.index < 65535 := hbound ar (by simp)
    by_cases hmatch : ar.2.index = i
    · have hcond : i ≤ ar.2.index ∧ ar.2.index ≤ (i + 1) % 65536 := by
        have hlt : i + 1 < 65536 := by omega
        rw [Nat.mod_eq_of_lt hlt]
        omega
      rw [if_pos hcond]
      have hbeq : (ar.2.index == i) = true := beq_iff_eq.mpr hmatch
      rw [hbeq]
      have hpos : ar.2.index - i = 0 := by omega
      rw [hpos]
      have hgl : (List.filter (fun r => r.index == i) (List.map Prod.snd l) ++
          if true = true then [ar.2] else []).getLast? = some ar.2 := by
        simp
      rw [hgl]
      simp [storeByte]
    · have hbeq : (ar.2.index == i) = false := by
        rw [beq_eq_false_iff_ne]; exact hmatch
      rw [hbeq]
      have hemp : (if false = true then [ar.2] else ([] : List Record)) = [] := by simp
      rw [hemp, List.append_nil]
      rw [← ih buf (fun x hx => hbound x (by simp [hx]))]
      by_cases hcond : i ≤ ar.2.index ∧ ar.2.index ≤ (i + 1) % 65536
      · rw [if_pos hcond]
        simp only [storeByte]
        rw [if_neg (show (0 : Nat) ≠ ar.2.index - i by omega)]
      · rw [if_neg hcond]

end EEB

namespace EEB

/-!
Utility facts about changed positions and the issued operation lists.
-/

theorem mkInv_index (startIndex : Nat) (src : List Nat) (i : Nat) :
    (mkInv startIndex src i).index = startIndex + i := rfl

theorem mkInv_status (startIndex : Nat) (src : List Nat) (i : Nat) :
    (mkInv startIndex src i).status = Record.INVALID := rfl

theorem mkInv_data (startIndex : Nat) (src : List Nat) (i : Nat) :
    (mkInv startIndex src i).data = src.getD i 0 := rfl

theorem setValid_mkInv (startIndex : Nat) (src : List Nat) (i : Nat) :
    setValid (mkInv startIndex src i) = mkVal startIndex src i := rfl

theorem capacity_le {g : Geom} (hg : GeomWF g) : capacity g ≤ 16383 := by
  obtain ⟨_, _, _, _, h1, h2, _⟩ := hg
  unfold capacity SmallestPageSize pageHeaderSize recordSize
  have : min g.size1 g.size2 - 2 ≤ 65534 := by omega
  omega

theorem changedFrom_mem (src : List Nat) (existing : Nat → Nat) :
    ∀ (fuel i j : Nat),
    (j ∈ changedFrom src existing i fuel ↔
      (i ≤ j ∧ j < i + fuel ∧ existing j ≠ src.getD j 0)) := by
  intro fuel
  induction fuel with
  | zero => intro i j; simp [changedFrom]; omega
  | succ fuel ih =>
    intro i j
    unfold changedFrom
    by_cases hc : existing i ≠ src.getD i 0
    · rw [if_pos hc]
      rw [List.mem_cons, ih (i + 1) j]
      constructor
      · rintro (rfl | ⟨h1, h2, h3⟩)
        · exact ⟨le_refl _, by omega, hc⟩
        · exact ⟨by omega, by omega, h3⟩
      · rintro ⟨h1, h2, h3⟩
        by_cases hji : j = i
        · exact Or.inl hji
        · exact Or.inr ⟨by omega, by omega, h3⟩
    · rw [if_neg hc]
      rw [ih (i + 1) j]
      constructor
      · rintro ⟨h1, h2, h3⟩
        exact ⟨by omega, by omega, h3⟩
      · rintro ⟨h1, h2, h3⟩
        have hji : j ≠ i := by
          intro hji
          rw [hji] at h3
          exact hc h3
        exact ⟨by omega, by omega, h3⟩

theorem changedFrom_cons (src : List Nat) (existing : Nat → Nat) (i fuel : Nat) :
    changedFrom src existing i (fuel + 1) =
      (if existing i ≠ src.getD i 0 then i :: changedFrom src existing (i + 1) fuel
       else changedFrom src existing (i + 1) fuel) := rfl

theorem opsFor_length (g : Geom) (p : LogicalPage) (startIndex : Nat) (src : List Nat) :
    ∀ (idxs : List Nat) (base : Nat),
    (opsFor g p startIndex src base idxs).length = idxs.length := by
  intro idxs
  induction idxs with
  | nil => intro base; rfl
  | cons i rest ih =>
    intro base
    unfold opsFor
    rw [List.length_cons, List.length_cons, ih (base + 1)]

theorem opsFor_cons (g : Geom) (p : LogicalPage) (startIndex : Nat) (src : List Nat)
    (base i : Nat) (rest : List Nat) :
    opsFor g p startIndex src base (i :: rest) =
      FlashOp.program (slotAddr g p base)
        (recBytes (startIndex + i) Record.INVALID (src.getD i 0)) ::
        opsFor g p startIndex src (base + 1) rest := rfl

theorem opsFlip_succ (g : Geom) (p : LogicalPage) (base c : Nat) :
    opsFlip g p base (c + 1) =
      FlashOp.program (slotAddr g p (base + c) + 2) [Record.VALID % 256] ::
        opsFlip g p base c := rfl

theorem opsFor_take (g : Geom) (p : LogicalPage) (startIndex : Nat) (src : List Nat) :
    ∀ (idxs : List Nat) (k base : Nat),
    (opsFor g p startIndex src base idxs).take k =
      opsFor g p startIndex src base (idxs.take k) := by
  intro idxs
  induction idxs with
  | nil => intro k base; simp [opsFor]
  | cons i rest ih =>
    intro k base
    cases k with
    | zero => simp [opsFor]
    | succ k =>
      rw [opsFor_cons, List.take_succ_cons, List.take_succ_cons, ih k (base + 1),
        opsFor_cons]

theorem opsFlip_length (g : Geom) (p : LogicalPage) : ∀ (cnt base : Nat),
    (opsFlip g p base cnt).length = cnt := by
  intro cnt
  induction cnt with
  | zero => intro base; rfl
  | succ c ih =>
    intro base
    rw [opsFlip_succ, List.length_cons, ih base]

theorem opsFlip_take (g : Geom) (p : LogicalPage) : ∀ (cnt j base : Nat), j ≤ cnt →
    (opsFlip g p base cnt).take j = opsFlip g p (base + (cnt - j)) j := by
  intro cnt
  induction cnt with
  | zero =>
    intro j base hj
    have hj0 : j = 0 := by omega
    subst hj0
    rfl
  | succ c ih =>
    intro j base hj
    cases j with
    | zero => rfl
    | succ j =>
      rw [opsFlip_succ, List.take_succ_cons, ih j base (by omega)]
      have h1 : base + (c + 1 - (j + 1)) = base + (c - j) := by omega
      rw [h1, opsFlip_succ]
      have h2 : base + (c - j) + j = base + c := by omega
      rw [h2]

end EEB

namespace EEB

/-!
Replaying the issued operation lists on a flash state.
-/

theorem applyOps_nil (f : Flash) : applyOps f [] = f := rfl

theorem applyOps_cons (f : Flash) (op : FlashOp) (ops : List FlashOp) :
    applyOps f (op :: ops) = applyOps (applyOp f op) ops := rfl

theorem applyOps_append (f : Flash) (l1 l2 : List FlashOp) :
    applyOps f (l1 ++ l2) = applyOps (applyOps f l1) l2 :=
  List.foldl_append _ _ _ _

theorem getD_append_len {α : Type} (l1 : List α) (x : α) (l2 : List α) (d : α) :
    (l1 ++ x :: l2).getD l1.length d = x := by
  rw [List.getD_append_right _ _ _ _ (le_refl _), Nat.sub_self]
  rfl

theorem set_append_len {α : Type} (l1 : List α) (x y : α) (l2 : List α) :
    (l1 ++ x :: l2).set l1.length y = l1 ++ y :: l2 := by
  induction l1 with
  | nil => rfl
  | cons a t ih =>
    simp only [List.cons_append, List.length_cons, List.set_cons_succ]
    rw [ih]

theorem applyOps_opsFor {g : Geom} {p : LogicalPage} (startIndex : Nat) (src : List Nat)
    (hsrc : ∀ b ∈ src, b < 256) (hcap : startIndex + src.length < 65536) :
    ∀ (idxs : List Nat) (f : Flash) (cur : List Record),
    (∀ i ∈ idxs, i < src.length) →
    PageRecs g f p cur →
    2 + 4 * (cur.length + idxs.length) + 4 ≤ getPageSize g p →
    PageRecs g (applyOps f (opsFor g p startIndex src cur.length idxs)) p
      (cur ++ idxs.map (mkInv startIndex src)) ∧
    OutsideRecArea g p f (applyOps f (opsFor g p startIndex src cur.length idxs)) := by
  intro idxs
  induction idxs with
  | nil =>
    intro f cur _ hcur _
    rw [show opsFor g p startIndex src cur.length [] = [] from rfl, applyOps_nil,
      List.map_nil, List.append_nil]
    exact ⟨hcur, outsideRecArea_refl f⟩
  | cons i rest ih =>
    intro f cur hin hcur hroom
    have hi : i < src.length := hin i (by simp)
    have hwf : WFRec (mkInv startIndex src i) := by
      refine ⟨by rw [mkInv_index]; omega, ?_, ?_, ?_⟩
      · rw [mkInv_status]; norm_num [Record.INVALID]
      · rw [mkInv_status]; norm_num [Record.INVALID, Record.EMPTY]
      · rw [mkInv_data, List.getD_eq_getElem _ _ hi]
        exact hsrc _ (List.getElem_mem hi)
    have happ := pageRecs_append hcur hwf (by
      simp only [List.length_cons] at hroom
      omega)
    obtain ⟨hver, hP1, hpres1⟩ := happ
    rw [opsFor_cons, applyOps_cons]
    have hstep : applyOp f (FlashOp.program (slotAddr g p cur.length)
        (recBytes (startIndex + i) Record.INVALID (src.getD i 0))) =
        f.write (slotAddr g p cur.length)
          (recBytes (mkInv startIndex src i).index (mkInv startIndex src i).status
            (mkInv startIndex src i).data) := rfl
    rw [hstep]
    have hlen : (cur ++ [mkInv startIndex src i]).length = cur.length + 1 := by
      simp
    have hih := ih (f.write (slotAddr g p cur.length)
        (recBytes (mkInv startIndex src i).index (mkInv startIndex src i).status
          (mkInv startIndex src i).data))
      (cur ++ [mkInv startIndex src i])
      (fun x hx => hin x (by simp [hx])) hP1
      (by rw [hlen]; simp only [List.length_cons] at hroom; omega)
    rw [hlen] at hih
    obtain ⟨hihP, hihO⟩ := hih
    constructor
    · have hassoc : (cur ++ [mkInv startIndex src i]) ++ rest.map (mkInv startIndex src) =
        cur ++ (mkInv startIndex src i :: rest.map (mkInv startIndex src)) := by
        rw [List.append_assoc]
        rfl
      rw [hassoc] at hihP
      exact hihP
    · apply outsideRecArea_trans _ hihO
      intro a ha
      apply hpres1
      have hfits := hcur.fits
      have hend : getPageEnd g p = getPageStart g p + getPageSize g p := pageEnd_eq g p
      unfold slotAddr
      rcases ha with ha | ha
      · left; omega
      · right; omega

theorem applyOps_opsFlip {g : Geom} {p : LogicalPage} :
    ∀ (mid : List Record) (f : Flash) (va done : List Record),
    PageRecs g f p ((va ++ mid) ++ done) →
    PageRecs g (applyOps f (opsFlip g p va.length mid.length)) p
      ((va ++ mid.map setValid) ++ done) ∧
    OutsideRecArea g p f (applyOps f (opsFlip g p va.length mid.length)) := by
  intro mid
  induction mid using List.reverseRecOn with
  | nil =>
    intro f va done h
    rw [show (([] : List Record)).length = 0 from rfl]
    rw [show opsFlip g p va.length 0 = [] from rfl, applyOps_nil, List.map_nil]
    exact ⟨h, outsideRecArea_refl f⟩
  | append_singleton mid0 r ih =>
    intro f va done h
    have hshape : (va ++ (mid0 ++ [r])) ++ done = (va ++ mid0) ++ (r :: done) := by
      rw [← List.append_assoc, List.append_assoc (va ++ mid0), List.singleton_append]
    rw [hshape] at h
    have hlen : (mid0 ++ [r]).length = mid0.length + 1 := by simp
    rw [hlen, opsFlip_succ, applyOps_cons]
    have hpos : va.length + mid0.length = ((va ++ mid0) : List Record).length := by
      simp
    have hklt : ((va ++ mid0) : List Record).length < (((va ++ mid0) ++ (r :: done)) : List Record).length := by
      simp
    have hflip := pageRecs_flip h ((va ++ mid0) : List Record).length hklt
    obtain ⟨hP1, hpres1⟩ := hflip
    have hgetd : (((va ++ mid0) ++ (r :: done)) : List Record).getD ((va ++ mid0) : List Record).length rec0 = r :=
      getD_append_len _ _ _ _
    have hset : (((va ++ mid0) ++ (r :: done)) : List Record).set ((va ++ mid0) : List Record).length (setValid r) =
        (va ++ mid0) ++ (setValid r :: done) := set_append_len _ _ _ _
    rw [hgetd, hset] at hP1
    have hstep : applyOp f (FlashOp.program (slotAddr g p (va.length + mid0.length) + 2)
        [Record.VALID % 256]) =
        f.write (slotAddr g p ((va ++ mid0) : List Record).length + 2) [Record.VALID % 256] := by
      rw [hpos]
      rfl
    rw [hstep]
    have hih := ih (f.write (slotAddr g p ((va ++ mid0) : List Record).length + 2)
        [Record.VALID % 256]) va (setValid r :: done) hP1
    obtain ⟨hihP, hihO⟩ := hih
    constructor
    · have hassoc : (va ++ mid0.map setValid) ++ (setValid r :: done) =
        (va ++ (mid0 ++ [r]).map setValid) ++ done := by
        simp
      rw [hassoc] at hihP
      exact hihP
    · apply outsideRecArea_trans _ hihO
      intro a ha
      apply hpres1
      have hfits := h.fits
      have hend : getPageEnd g p = getPageStart g p + getPageSize g p := pageEnd_eq g p
      have hlt : ((va ++ mid0) : List Record).length < (((va ++ mid0) ++ (r :: done)) : List Record).length := hklt
      unfold slotAddr
      simp only [List.length_append, List.length_cons] at hfits hlt ⊢
      rcases ha with ha | ha
      · omega
      · omega

end EEB

namespace EEB

/-!
The behaviour of writeRecord and of the two phases of writeRange on a
well-formed active page.
-/

theorem writeRecord_spec {g : Geom} {p : LogicalPage} {s : EE} {cur : List Record}
    (hcur : PageRecs g s.flash p cur) (index data status : Nat)
    (hwf : WFRec ⟨index, status, data⟩)
    (hfits : 2 + 4 * (cur.length + 1) + 4 ≤ getPageSize g p) :
    writeRecord g s p index data status =
      (true,
        { s with flash := s.flash.write (slotAddr g p cur.length) (recBytes index status data) },
        [FlashOp.program (slotAddr g p cur.length) (recBytes index status data)]) ∧
    PageRecs g (s.flash.write (slotAddr g p cur.length) (recBytes index status data)) p
      (cur ++ [⟨index, status, data⟩]) ∧
    (∀ a, a < slotAddr g p cur.length ∨ slotAddr g p cur.length + 4 ≤ a →
      (s.flash.write (slotAddr g p cur.length) (recBytes index status data)).byte a =
        s.flash.byte a) := by
  have happ := pageRecs_append hcur hwf hfits
  obtain ⟨hver, hP, hpres⟩ := happ
  have hfits0 := hcur.fits
  have hend : getPageEnd g p = getPageStart g p + getPageSize g p := pageEnd_eq g p
  have hroom : ¬ (getPageEnd g p - findEmptyAddress g s.flash p < 4) := by
    rw [findEmptyAddress_eq hcur]
    unfold slotAddr
    omega
  refine ⟨?_, hP, hpres⟩
  unfold writeRecord
  rw [if_neg hroom, findEmptyAddress_eq hcur, hver]

end EEB

namespace EEB

theorem phaseA_spec {g : Geom} {p : LogicalPage} (startIndex : Nat) (src : List Nat)
    (existing : Nat → Nat) (hsrc : ∀ b ∈ src, b < 256)
    (hcap : startIndex + src.length < 65536) :
    ∀ (cnt i : Nat) (s : EE) (cur : List Record),
    i + cnt = src.length →
    s.activePage = p →
    PageRecs g s.flash p cur →
    2 + 4 * (cur.length + (changedFrom src existing i cnt).length) + 4 ≤ getPageSize g p →
    phaseA g startIndex src existing s true i cnt =
      (true,
        { flash := applyOps s.flash
            (opsFor g p startIndex src cur.length (changedFrom src existing i cnt)),
          activePage := s.activePage,
          alternatePage := s.alternatePage },
        opsFor g p startIndex src cur.length (changedFrom src existing i cnt)) := by
  intro cnt
  induction cnt with
  | zero =>
    intro i s cur hlen hact hcur hroom
    rfl
  | succ cnt ih =>
    intro i s cur hlen hact hcur hroom
    have hi : i < src.length := by omega
    have hunf : phaseA g startIndex src existing s true i (cnt + 1) =
        (if existing i ≠ src.getD i 0 then
          (let step := writeRecord g s s.activePage ((startIndex + i) % 65536)
            (src.getD i 0) Record.INVALID
           let rest := phaseA g startIndex src existing step.2.1 step.1 (i + 1) cnt
           (rest.1, rest.2.1, step.2.2 ++ rest.2.2))
        else phaseA g startIndex src existing s true (i + 1) cnt) := rfl
    by_cases hch : existing i ≠ src.getD i 0
    · have hchn : changedFrom src existing i (cnt + 1) =
        i :: changedFrom src existing (i + 1) cnt := by
        rw [changedFrom_cons, if_pos hch]
      have hwf : WFRec ⟨startIndex + i, Record.INVALID, src.getD i 0⟩ := by
        refine ⟨?_, ?_, ?_, ?_⟩
        · show startIndex + i < 65536
          omega
        · show Record.INVALID < 256
          norm_num [Record.INVALID]
        · show Record.INVALID ≠ Record.EMPTY
          norm_num [Record.INVALID, Record.EMPTY]
        · show src.getD i 0 < 256
          rw [List.getD_eq_getElem _ _ hi]
          exact hsrc _ (List.getElem_mem hi)
      have hfits1 : 2 + 4 * (cur.length + 1) + 4 ≤ getPageSize g p := by
        rw [hchn, List.length_cons] at hroom
        omega
      obtain ⟨hweq, hP1, _⟩ :=
        writeRecord_spec hcur (startIndex + i) (src.getD i 0) Record.INVALID hwf hfits1
      have hmod : (startIndex + i) % 65536 = startIndex + i := Nat.mod_eq_of_lt (by omega)
      rw [hunf, if_pos hch, hact, hmod, hweq]
      have hlen1 : (cur ++ [(⟨startIndex + i, Record.INVALID, src.getD i 0⟩ : Record)]).length =
          cur.length + 1 := by simp
      have hih := ih (i + 1)
        { s with flash := (s.flash.write (slotAddr g p cur.length)
            (recBytes (startIndex + i) Record.INVALID (src.getD i 0))) }
        (cur ++ [⟨startIndex + i, Record.INVALID, src.getD i 0⟩])
        (by omega) hact hP1
        (by
          rw [hlen1]
          rw [hchn, List.length_cons] at hroom
          omega)
      rw [hlen1] at hih
      dsimp only
      rw [hih, hchn, opsFor_cons, applyOps_cons]
      rw [hact]
      rfl
    · have hchn : changedFrom src existing i (cnt + 1) =
        changedFrom src existing (i + 1) cnt := by
        rw [changedFrom_cons, if_neg hch]
      rw [hunf, if_neg hch, hchn]
      exact ih (i + 1) s cur (by omega) hact hcur (by rw [← hchn]; exact hroom)

end EEB

namespace EEB

theorem commitWalk_at_start (g : Geom) (a : Nat) (s : EE) (success : Bool) (fuel : Nat) :
    commitWalk g a s success a fuel = (success, s, []) := by
  cases fuel with
  | zero => rfl
  | succ fu => simp [commitWalk]

theorem commitWalk_spec {g : Geom} {p : LogicalPage} (hstart : 2 ≤ getPageStart g p) :
    ∀ (mid : List Record) (fuel : Nat) (s : EE) (va done : List Record),
    mid.length ≤ fuel →
    PageRecs g s.flash p ((va ++ mid) ++ done) →
    (∀ k < va.length, (va.getD k rec0).status ≠ Record.INVALID) →
    (∀ k < mid.length, (mid.getD k rec0).status = Record.INVALID) →
    commitWalk g (getPageStart g p) s true (slotAddr g p (va.length + mid.length) - 4) fuel =
      (true,
        { flash := applyOps s.flash (opsFlip g p va.length mid.length),
          activePage := s.activePage, alternatePage := s.alternatePage },
        opsFlip g p va.length mid.length) := by
  intro mid
  induction mid using List.reverseRecOn with
  | nil =>
    intro fuel s va done _ h hva _
    rw [show (([] : List Record)).length = 0 from rfl]
    rw [show opsFlip g p va.length 0 = [] from rfl, applyOps_nil]
    rw [Nat.add_zero]
    cases fuel with
    | zero => rfl
    | succ fu =>
      by_cases hva0 : va.length = 0
      · have hlt : ¬ (getPageStart g p < slotAddr g p va.length - 4) := by
          unfold slotAddr
          omega
        show (if getPageStart g p < slotAddr g p va.length - 4 then _ else (true, s, [])) = _
        rw [if_neg hlt]
      · have haddr : slotAddr g p va.length - 4 = slotAddr g p (va.length - 1) := by
          unfold slotAddr
          omega
        have hlt : getPageStart g p < slotAddr g p va.length - 4 := by
          unfold slotAddr at *
          omega
        have hpos : va.length - 1 < (((va ++ []) ++ done) : List Record).length := by
          simp
          omega
        have hgetd : (((va ++ []) ++ done) : List Record).getD (va.length - 1) rec0 =
            va.getD (va.length - 1) rec0 := by
          rw [List.append_nil]
          exact List.getD_append _ _ _ _ (by omega)
        have hrec : recordAt s.flash (slotAddr g p (va.length - 1)) =
            (((va ++ []) ++ done) : List Record).getD (va.length - 1) rec0 :=
          recordAt_of_bytes (h.bytes _ hpos) (h.wfr _ hpos)
        have hnotinv : (recordAt s.flash (slotAddr g p (va.length - 1))).status ≠ Record.INVALID := by
          rw [hrec, hgetd]
          exact hva _ (by omega)
        show (if getPageStart g p < slotAddr g p va.length - 4 then
            (if (recordAt s.flash (slotAddr g p va.length - 4)).status = Record.INVALID then _
             else (true, s, []))
          else (true, s, [])) = _
        rw [if_pos hlt, haddr, if_neg hnotinv]
  | append_singleton mid0 r ih =>
    intro fuel s va done hfuel h hva hmid
    rw [show ((mid0 ++ [r]) : List Record).length = mid0.length + 1 by simp] at hfuel ⊢
    cases fuel with
    | zero => omega
    | succ fu =>
    have hshape : (va ++ (mid0 ++ [r])) ++ done = (va ++ mid0) ++ (r :: done) := by simp
    rw [hshape] at h
    have haddr : slotAddr g p (va.length + (mid0.length + 1)) - 4 =
        slotAddr g p (va.length + mid0.length) := by
      unfold slotAddr
      omega
    have hlt : getPageStart g p < slotAddr g p (va.length + (mid0.length + 1)) - 4 := by
      unfold slotAddr
      omega
    have hpos : va.length + mid0.length < (((va ++ mid0) ++ (r :: done)) : List Record).length := by
      simp
    have hpos2 : va.length + mid0.length = ((va ++ mid0) : List Record).length := by simp
    have hgetd : (((va ++ mid0) ++ (r :: done)) : List Record).getD
        ((va ++ mid0) : List Record).length rec0 = r := getD_append_len _ _ _ _
    have hrec : recordAt s.flash (slotAddr g p (va.length + mid0.length)) = r := by
      have := recordAt_of_bytes (h.bytes _ hpos) (h.wfr _ hpos)
      rw [this]
      rw [hpos2] at *
      exact hgetd
    have hrinv : r.status = Record.INVALID := by
      have := hmid mid0.length (by simp)
      rwa [getD_append_len mid0 r [] rec0] at this
    have hflip := pageRecs_flip h ((va ++ mid0) : List Record).length (by simp)
    obtain ⟨hP1, _⟩ := hflip
    rw [hgetd, set_append_len] at hP1
    rw [← hpos2] at hP1
    have hih := ih fu
      { s with flash := (s.flash.write (slotAddr g p (va.length + mid0.length) + 2)
          [Record.VALID % 256]) }
      va (setValid r :: done) (by omega)
      hP1
      hva
      (fun k hk => by
        have := hmid k (by simp; omega)
        rwa [List.getD_append _ _ _ _ hk] at this)
    show (if getPageStart g p < slotAddr g p (va.length + (mid0.length + 1)) - 4 then
        (if (recordAt s.flash (slotAddr g p (va.length + (mid0.length + 1)) - 4)).status =
            Record.INVALID then
          (let step := writeRecordStatus g s
            (slotAddr g p (va.length + (mid0.length + 1)) - 4) Record.VALID
           let rest := commitWalk g (getPageStart g p) step.2.1 step.1
            (slotAddr g p (va.length + (mid0.length + 1)) - 4 - 4) fu
           (rest.1, rest.2.1, step.2.2 ++ rest.2.2))
         else (true, s, []))
      else (true, s, [])) = _
    rw [if_pos hlt, haddr, hrec, if_pos hrinv]
    have hver : writeVerifies s.flash (slotAddr g p (va.length + mid0.length) + 2)
        [Record.VALID % 256] = true := writeVerifies_zero _ _
    have hstep : writeRecordStatus g s (slotAddr g p (va.length + mid0.length)) Record.VALID =
        (true,
          { s with flash := (s.flash.write (slotAddr g p (va.length + mid0.length) + 2)
              [Record.VALID % 256]) },
          [FlashOp.program (slotAddr g p (va.length + mid0.length) + 2) [Record.VALID % 256]]) := by
      unfold writeRecordStatus
      rw [hver]
    rw [hstep]
    dsimp only
    rw [hih]
    rw [show opsFlip g p va.length (mid0.length + 1) =
      FlashOp.program (slotAddr g p (va.length + mid0.length) + 2) [Record.VALID % 256] ::
        opsFlip g p va.length mid0.length from rfl]
    rw [applyOps_cons]
    rfl

end EEB

namespace EEB

theorem getD_map_lt {α β : Type} (fn : α → β) (l : List α) (k : Nat)
    (hk : k < l.length) (d : β) (d0 : α) :
    (l.map fn).getD k d = fn (l.getD k d0) := by
  rw [List.getD_eq_getElem _ _ (by simpa using hk), List.getD_eq_getElem _ _ hk,
    List.getElem_map]

theorem writeRange_direct {g : Geom} {s : EE} {p : LogicalPage} {recs : List Record}
    (hA : ActiveState g s p recs) (startIndex : Nat) (src : List Nat)
    (hsrc : ∀ b ∈ src, b < 256)
    (hrange : startIndex + src.length < capacity g)
    (hroom : 2 + 4 * (recs.length + src.length) + 4 ≤ getPageSize g p) :
    writeRange g s startIndex src =
      (⟨applyOps s.flash (wrOps g s p startIndex src recs.length),
        s.activePage, s.alternatePage⟩,
       wrOps g s p startIndex src recs.length) ∧
    PageRecs g (applyOps s.flash (wrOps g s p startIndex src recs.length)) p
      (recs ++ (chL g s startIndex src).map (mkVal startIndex src)) ∧
    OutsideRecArea g p s.flash
      (applyOps s.flash (wrOps g s p startIndex src recs.length)) := by
  simp only [wrOps, chL]
  have hcap : startIndex + src.length < 65536 := by
    have := capacity_le hA.geom
    omega
  have hstart2 : 2 ≤ getPageStart g p := by
    rcases hA.hp with hp | hp <;> rw [hp]
    · exact hA.geom.b1
    · exact hA.geom.b2
  set existing := readRange g s startIndex src.length (fun _ => 0) with hex
  set ch := changedFrom src existing 0 src.length with hchdef
  have hchmem : ∀ i ∈ ch, i < src.length := by
    intro i hi
    rw [hchdef, changedFrom_mem] at hi
    omega
  have hnoinv : ∀ k < recs.length, (recs.getD k rec0).status ≠ Record.INVALID := by
    intro k hk
    rw [getD_status_valid hA.allValid k hk]
    norm_num [Record.VALID, Record.INVALID]
  have hfalse : hasInvalidRecords g s.flash s.activePage = false := by
    rw [hA.act]
    exact hasInvalidRecords_eq_false hA.recsOK hnoinv
  have hroomch : 2 + 4 * (recs.length + ch.length) + 4 ≤ getPageSize g p := by
    have : ch.length ≤ src.length := by
      rw [hchdef]
      clear hchdef hchmem
      generalize 0 = i0
      induction src.length generalizing i0 with
      | zero => simp [changedFrom]
      | succ n ihn =>
        rw [changedFrom_cons]
        by_cases hc : existing i0 ≠ src.getD i0 0
        · rw [if_pos hc, List.length_cons]
          exact Nat.succ_le_succ (ihn (i0 + 1))
        · rw [if_neg hc]
          exact Nat.le_succ_of_le (ihn (i0 + 1))
    omega
  have hPA := phaseA_spec startIndex src existing hsrc hcap src.length 0 s recs
    (by omega) hA.act hA.recsOK (by rw [← hchdef]; exact hroomch)
  rw [← hchdef] at hPA
  have hPinv := applyOps_opsFor (p := p) startIndex src hsrc hcap ch s.flash recs
    hchmem hA.recsOK hroomch
  obtain ⟨hPinvP, hPinvO⟩ := hPinv
  -- the invalid statuses of the appended records
  have hinvGet : ∀ k < ch.length, ((ch.map (mkInv startIndex src)).getD k rec0).status =
      Record.INVALID := by
    intro k hk
    rw [getD_map_lt _ _ _ hk _ 0, mkInv_status]
  unfold writeRange
  rw [if_neg (by omega)]
  rw [← hex, hfalse]
  show (let resA := phaseA g startIndex src existing s (!false) 0 src.length
        let resB :=
          if resA.1 then
            commitWalk g (getPageStart g resA.2.1.activePage) resA.2.1 true
              (findLastInvalidAddress g resA.2.1.flash resA.2.1.activePage)
              (findLastInvalidAddress g resA.2.1.flash resA.2.1.activePage)
          else (false, resA.2.1, ([] : List FlashOp))
        if resB.1 then (resB.2.1, resA.2.2 ++ resB.2.2)
        else
          let resC := swapPagesAndWrite g resB.2.1 startIndex src
          (resC.2.1, resA.2.2 ++ resB.2.2 ++ resC.2.2)) = _ ∧ _ ∧ _
  rw [show (!false) = true from rfl]
  rw [hPA]
  dsimp only
  simp only [if_pos (Eq.refl true)]
  rw [hA.act]
  -- the state after phase A
  have hfli : findLastInvalidAddress g (applyOps s.flash
      (opsFor g p startIndex src recs.length ch)) p =
      (if ch.length = 0 then getPageStart g p
       else slotAddr g p (recs.length + ch.length - 1)) := by
    by_cases hch0 : ch.length = 0
    · rw [if_pos hch0]
      have hnil : ch = [] := List.length_eq_zero.mp hch0
      apply findLastInvalid_of_none hPinvP
      intro k hk
      rw [hnil, List.map_nil, List.append_nil] at *
      exact hnoinv k (by simpa using hk)
    · rw [if_neg hch0]
      apply findLastInvalid_of_last hPinvP
      · simp
        omega
      · rw [List.getD_append_right _ _ _ _ (by omega)]
        have hsub : recs.length + ch.length - 1 - recs.length = ch.length - 1 := by omega
        rw [hsub]
        exact hinvGet _ (by omega)
      · intro k h1 h2
        simp only [List.length_append, List.length_map] at h2
        omega
  rw [hfli]
  by_cases hch0 : ch.length = 0
  · rw [if_pos hch0]
    have hnil : ch = [] := List.length_eq_zero.mp hch0
    rw [commitWalk_at_start]
    rw [hnil]
    rw [show opsFor g p startIndex src recs.length [] = [] from rfl]
    rw [show opsFlip g p recs.length (([] : List Nat)).length = [] from rfl]
    simp only [applyOps_nil, List.append_nil, List.map_nil]
    refine ⟨rfl, ?_, outsideRecArea_refl _⟩
    exact hA.recsOK
  · rw [if_neg hch0]
    have haddr : slotAddr g p (recs.length + ch.length - 1) =
        slotAddr g p (recs.length + (ch.map (mkInv startIndex src)).length) - 4 := by
      unfold slotAddr
      simp only [List.length_map]
      omega
    have hCW := commitWalk_spec (g := g) (p := p) hstart2 (ch.map (mkInv startIndex src))
      (slotAddr g p (recs.length + ch.length - 1))
      { flash := applyOps s.flash (opsFor g p startIndex src recs.length ch),
        activePage := p, alternatePage := s.alternatePage }
      recs []
      (by
        unfold slotAddr
        simp only [List.length_map]
        omega)
      (by
        rw [List.append_nil]
        exact hPinvP)
      hnoinv (fun k hk => hinvGet k (by simpa using hk))
    rw [show recs.length + (ch.map (mkInv startIndex src)).length =
      recs.length + ch.length by simp] at hCW
    rw [show slotAddr g p (recs.length + ch.length) - 4 =
      slotAddr g p (recs.length + ch.length - 1) by unfold slotAddr; omega] at hCW
    rw [hCW]
    simp only [if_true, if_pos (Eq.refl true)]
    rw [show (ch.map (mkInv startIndex src)).length = ch.length from by simp]
    constructor
    · rw [applyOps_append]
    · constructor
      · have := applyOps_opsFlip (g := g) (p := p) (ch.map (mkInv startIndex src))
          (applyOps s.flash (opsFor g p startIndex src recs.length ch)) recs []
          (by rw [List.append_nil]; exact hPinvP)
        obtain ⟨hfinP, hfinO⟩ := this
        rw [List.append_nil] at hfinP
        rw [show (ch.map (mkInv startIndex src)).length = ch.length from by simp] at hfinP
        rw [applyOps_append]
        have hmaps : (ch.map (mkInv startIndex src)).map setValid =
            ch.map (mkVal startIndex src) := by
          rw [List.map_map]
          apply List.map_congr_left
          intro x _
          exact setValid_mkInv startIndex src x
        rw [hmaps] at hfinP
        exact hfinP
      · have := applyOps_opsFlip (g := g) (p := p) (ch.map (mkInv startIndex src))
          (applyOps s.flash (opsFor g p startIndex src recs.length ch)) recs []
          (by rw [List.append_nil]; exact hPinvP)
        obtain ⟨_, hfinO⟩ := this
        rw [show (ch.map (mkInv startIndex src)).length = ch.length from by simp] at hfinO
        rw [applyOps_append]
        exact outsideRecArea_trans hPinvO hfinO

end EEB

namespace EEB

/-!
Positions outside the changed list, boot-time page selection, and the
record sequence the valid view yields.
-/

theorem changedFrom_not_mem (src : List Nat) (existing : Nat → Nat) :
    ∀ (fuel i0 j : Nat), i0 ≤ j → j < i0 + fuel →
    j ∉ changedFrom src existing i0 fuel → existing j = src.getD j 0 := by
  intro fuel
  induction fuel with
  | zero => intro i0 j h1 h2 _; omega
  | succ n ih =>
    intro i0 j h1 h2 hnot
    rw [changedFrom_cons] at hnot
    by_cases hji : j = i0
    · subst hji
      by_cases hc : existing j ≠ src.getD j 0
      · exfalso
        apply hnot
        rw [if_pos hc]
        simp
      · push_neg at hc
        exact hc
    · apply ih (i0 + 1) j (by omega) (by omega)
      intro hmem
      apply hnot
      by_cases hc : existing i0 ≠ src.getD i0 0
      · rw [if_pos hc]
        simp [hmem]
      · rw [if_neg hc]
        exact hmem

theorem initEE_select {g : Geom} {f : Flash} {p : LogicalPage}
    (hp : p = LogicalPage.Page1 ∨ p = LogicalPage.Page2)
    (hstat : readPageStatus g f p = PageHeader.ACTIVE)
    (hother : p = LogicalPage.Page2 →
      readPageStatus g f LogicalPage.Page1 ≠ PageHeader.ACTIVE) :
    initEE g f =
      ((⟨f, p, if p = LogicalPage.Page1 then LogicalPage.Page2
        else LogicalPage.Page1⟩ : EE), []) := by
  rcases hp with rfl | rfl
  · simp only [initEE, updateActivePage]
    rw [if_pos hstat]
    rw [if_neg (show ¬ (LogicalPage.Page1 = LogicalPage.NoPage) from by decide)]
    simp
  · simp only [initEE, updateActivePage]
    rw [if_neg (hother rfl), if_pos hstat]
    rw [if_neg (show ¬ (LogicalPage.Page2 = LogicalPage.NoPage) from by decide)]
    rw [if_neg (show ¬ (LogicalPage.Page2 = LogicalPage.Page1) from by decide)]

theorem validView_map_snd (g : Geom) (f : Flash) (p : LogicalPage) :
    (validRecordsView g f p).map Prod.snd =
      ((recordSlots g f p).map Prod.snd).takeWhile
        (fun r => r.status == Record.VALID) := by
  unfold validRecordsView
  rw [List.takeWhile_map]
  rfl

end EEB

namespace EEB

/-!
The valid view and the range read of the fully committed post-write page.
-/

theorem range_getD {α : Type} (d : α) (l : List α) :
    (List.range l.length).map (fun c => l.getD c d) = l := by
  have h := range_map_getD d id l
  simpa using h

theorem foldl_snd (si e : Nat) :
    ∀ (l : List (Nat × Record)) (buf : Nat → Nat),
    List.foldl
      (fun buf ar =>
        if si ≤ ar.2.index ∧ ar.2.index ≤ e then
          storeByte buf (ar.2.index - si) ar.2.data
        else buf) buf l =
    List.foldl
      (fun buf r =>
        if si ≤ r.index ∧ r.index ≤ e then
          storeByte buf (r.index - si) r.data
        else buf) buf (l.map Prod.snd) := by
  intro l
  induction l with
  | nil => intro buf; rfl
  | cons x t ih =>
    intro buf
    rw [List.map_cons, List.foldl_cons, List.foldl_cons, ih]

theorem final_read {g : Geom} {s : EE} {p : LogicalPage} {recs : List Record}
    (hA : ActiveState g s p recs) (startIndex : Nat) (src : List Nat)
    (hrange : startIndex + src.length < capacity g)
    {s2 : EE}
    (hP : PageRecs g s2.flash p
      (recs ++ (chL g s startIndex src).map (mkVal startIndex src)))
    (hact : s2.activePage = p) :
    ∀ j < src.length,
      readRange g s2 startIndex src.length (fun _ => 0) j = src.getD j 0 := by
  intro j hj
  have hcap := capacity_le hA.geom
  have hn : startIndex + src.length < 65536 := by omega
  have hchmem : ∀ i ∈ chL g s startIndex src, i < src.length := by
    intro i hi
    rw [chL, changedFrom_mem] at hi
    omega
  have hval2 : ∀ k < (recs ++ (chL g s startIndex src).map (mkVal startIndex src)).length,
      ((recs ++ (chL g s startIndex src).map (mkVal startIndex src)).getD k rec0).status =
        Record.VALID := by
    intro k hk
    by_cases hkr : k < recs.length
    · rw [List.getD_append _ _ _ _ hkr]
      exact getD_status_valid hA.allValid k hkr
    · push_neg at hkr
      rw [List.getD_append_right _ _ _ _ hkr]
      simp only [List.length_append, List.length_map] at hk
      rw [getD_map_lt _ _ _ (by omega) _ 0]
      rfl
  have hview2 := validView_of_allValid hP hval2
  have hview1 := validView_of_allValid hA.recsOK (getD_status_valid hA.allValid)
  have hlen2 : (recs ++ (chL g s startIndex src).map (mkVal startIndex src)).length =
      recs.length + (chL g s startIndex src).length := by simp
  have hsplit : validRecordsView g s2.flash s2.activePage =
      validRecordsView g s.flash s.activePage ++
        (List.range (chL g s startIndex src).length).map
          (fun c => (slotAddr g p (recs.length + c),
            ((chL g s startIndex src).map (mkVal startIndex src)).getD c rec0)) := by
    rw [hact, hview2, hA.act, hview1, hlen2, map_range_append]
    congr 1
    · apply List.map_congr_left
      intro k hk
      rw [List.mem_range] at hk
      rw [List.getD_append _ _ _ _ hk]
    · apply List.map_congr_left
      intro c hc
      rw [List.mem_range] at hc
      rw [List.getD_append_right _ _ _ _ (by omega)]
      rw [Nat.add_sub_cancel_left]
  rw [readRange_view_append hsplit startIndex src.length (fun _ => 0)]
  rw [foldl_snd]
  have hsnd : ((List.range (chL g s startIndex src).length).map
      (fun c => (slotAddr g p (recs.length + c),
        ((chL g s startIndex src).map (mkVal startIndex src)).getD c rec0))).map Prod.snd =
      (chL g s startIndex src).map (mkVal startIndex src) := by
    rw [List.map_map]
    show (List.range (chL g s startIndex src).length).map
      (fun c => ((chL g s startIndex src).map (mkVal startIndex src)).getD c rec0) = _
    rw [show (chL g s startIndex src).length =
      ((chL g s startIndex src).map (mkVal startIndex src)).length from by simp]
    exact range_getD rec0 _
  rw [hsnd]
  rw [fold_store_new startIndex src.length src hn (chL g s startIndex src) _ j hchmem hj]
  by_cases hjc : j ∈ chL g s startIndex src
  · rw [if_pos hjc]
  · rw [if_neg hjc]
    rw [chL] at hjc
    by_contra hne
    exact hjc ((changedFrom_mem src
      (readRange g s startIndex src.length (fun _ => 0)) src.length 0 j).mpr
      ⟨by omega, by omega, hne⟩)


theorem changedFrom_length (src : List Nat) (existing : Nat → Nat) :
    ∀ (fuel i0 : Nat), (changedFrom src existing i0 fuel).length ≤ fuel := by
  intro fuel
  induction fuel with
  | zero => intro i0; simp [changedFrom]
  | succ n ihn =>
    intro i0
    rw [changedFrom_cons]
    by_cases hc : existing i0 ≠ src.getD i0 0
    · rw [if_pos hc, List.length_cons]
      exact Nat.succ_le_succ (ihn (i0 + 1))
    · rw [if_neg hc]
      exact Nat.le_succ_of_le (ihn (i0 + 1))


/-- The page's valid view and its bytes outside the record area are
unchanged after replaying any strict prefix of the operations a direct
writeRange issues: the flips come last-to-first, so an uncommitted
append always sits at the cut. -/
theorem reset_prefix_view {g : Geom} {s : EE} {p : LogicalPage} {recs : List Record}
    (hA : ActiveState g s p recs) (startIndex : Nat) (src : List Nat)
    (hsrc : ∀ b ∈ src, b < 256)
    (hrange : startIndex + src.length < capacity g)
    (hroom : 2 + 4 * (recs.length + src.length) + 4 ≤ getPageSize g p)
    (k : Nat) (hk : k < (wrOps g s p startIndex src recs.length).length) :
    validRecordsView g
        (applyOps s.flash ((wrOps g s p startIndex src recs.length).take k)) p =
      validRecordsView g s.flash p ∧
    OutsideRecArea g p s.flash
      (applyOps s.flash ((wrOps g s p startIndex src recs.length).take k)) := by
  have hcap := capacity_le hA.geom
  have hn : startIndex + src.length < 65536 := by omega
  simp only [wrOps, chL] at hk ⊢
  set existing := readRange g s startIndex src.length (fun _ => 0) with hex
  set ch := changedFrom src existing 0 src.length with hchdef
  have hchmem : ∀ i ∈ ch, i < src.length := by
    intro i hi
    rw [hchdef, changedFrom_mem] at hi
    omega
  have hchlen : ch.length ≤ src.length := changedFrom_length src existing src.length 0
  have hAlen : (opsFor g p startIndex src recs.length ch).length = ch.length :=
    opsFor_length g p startIndex src ch recs.length
  have hBlen : (opsFlip g p recs.length ch.length).length = ch.length :=
    opsFlip_length g p ch.length recs.length
  rw [List.length_append, hAlen, hBlen] at hk
  have hrecsval : ∀ c < recs.length, (recs.getD c rec0).status = Record.VALID :=
    getD_status_valid hA.allValid
  have hview1 := validView_of_allValid hA.recsOK hrecsval
  by_cases hkA : k ≤ ch.length
  · -- the reset falls inside phase A
    rw [List.take_append_of_le_length (by omega),
      opsFor_take g p startIndex src ch k recs.length]
    have hPk := applyOps_opsFor (p := p) startIndex src hsrc hn (ch.take k) s.flash recs
      (fun i hi => hchmem i (List.mem_of_mem_take hi))
      hA.recsOK
      (by
        have := List.length_take_le k ch
        omega)
    obtain ⟨hPkP, hPkO⟩ := hPk
    refine ⟨?_, hPkO⟩
    match hck : ch.take k with
    | [] =>
      rw [hck] at hPkP
      rw [List.map_nil, List.append_nil] at hPkP
      rw [validView_of_allValid hPkP hrecsval, hview1]
    | i :: rest =>
      rw [hck] at hPkP
      rw [List.map_cons] at hPkP
      have hcut := validView_cut hPkP hrecsval
        (by rw [mkInv_status]; norm_num [Record.INVALID, Record.VALID])
      rw [hcut, hview1]
  · -- the reset falls inside phase B: m flips are committed, m < ch.length
    push_neg at hkA
    have hm : k - ch.length < ch.length := by omega
    set m := k - ch.length with hmdef
    set d := ch.length - m with hddef
    have hd1 : 1 ≤ d := by omega
    have hdch : d ≤ ch.length := by omega
    have hksplit : k = (opsFor g p startIndex src recs.length ch).length + m := by
      rw [hAlen]; omega
    rw [hksplit, List.take_append]
    rw [opsFlip_take g p ch.length m recs.length (by omega)]
    rw [applyOps_append]
    have hPA := applyOps_opsFor (p := p) startIndex src hsrc hn ch s.flash recs
      hchmem hA.recsOK (by omega)
    obtain ⟨hPAP, hPAO⟩ := hPA
    have htlen : (ch.take d).length = d := List.length_take_of_le hdch
    have hdlen : (ch.drop d).length = m := by
      rw [List.length_drop]; omega
    have hshape : recs ++ ch.map (mkInv startIndex src) =
        ((recs ++ (ch.take d).map (mkInv startIndex src)) ++
          (ch.drop d).map (mkInv startIndex src)) ++ [] := by
      rw [List.append_nil, List.append_assoc, ← List.map_append, List.take_append_drop]
    rw [hshape] at hPAP
    have hvalen : ((recs ++ (ch.take d).map (mkInv startIndex src)) : List Record).length =
        recs.length + d := by
      rw [List.length_append, List.length_map, htlen]
    have hops : opsFlip g p (recs.length + (ch.length - m)) m =
        opsFlip g p ((recs ++ (ch.take d).map (mkInv startIndex src)) : List Record).length
          ((ch.drop d).map (mkInv startIndex src)).length := by
      rw [hvalen, List.length_map, hdlen, hddef]
    rw [hops]
    have hPB := applyOps_opsFlip ((ch.drop d).map (mkInv startIndex src))
      (applyOps s.flash (opsFor g p startIndex src recs.length ch))
      (recs ++ (ch.take d).map (mkInv startIndex src)) [] hPAP
    obtain ⟨hPBP, hPBO⟩ := hPB
    refine ⟨?_, outsideRecArea_trans hPAO hPBO⟩
    rw [List.append_nil] at hPBP
    have hne : ch.take d ≠ [] := by
      intro hnil
      rw [hnil] at htlen
      simp at htlen
      omega
    obtain ⟨i, rest, hcons⟩ := List.exists_cons_of_ne_nil hne
    have hlist : (recs ++ (ch.take d).map (mkInv startIndex src)) ++
          ((ch.drop d).map (mkInv startIndex src)).map setValid =
        recs ++ (mkInv startIndex src i ::
          (rest.map (mkInv startIndex src) ++
            ((ch.drop d).map (mkInv startIndex src)).map setValid)) := by
      rw [hcons, List.map_cons, List.append_assoc, List.cons_append]
    rw [hlist] at hPBP
    have hcut := validView_cut hPBP hrecsval
      (by rw [mkInv_status]; norm_num [Record.INVALID, Record.VALID])
    rw [hcut, hview1]


/-!
The claims.
-/

/-- C2: on a flash state whose active-page record indexes fit below the
uint16 maximum (as in every reachable state, where indexes are below the
capacity), the byte get reports for a logical id i is the data of the
last VALID record carrying id i that precedes the first non-VALID record
in the active page's append order, and 0xFF when there is no such
record. -/
theorem get_reads_last_valid {g : Geom} {s : EE} (i : Nat) (hi : i < 65535)
    (hidx : ∀ ar ∈ validRecordsView g s.flash s.activePage, ar.2.index < 65535) :
    getByte g s i = specAuthoritative g s.flash s.activePage i := by
  have h1 : i % 65536 = i := Nat.mod_eq_of_lt (by omega)
  unfold getByte get
  dsimp only
  rw [h1, show (1 : Nat) % 65536 = 1 from rfl]
  show (List.foldl
      (fun buf ar =>
        if i ≤ ar.2.index ∧ ar.2.index ≤ (i + 1) % 65536 then
          storeByte buf (ar.2.index - i) ar.2.data
        else buf)
      (fun j => if j < 1 then FLASH_ERASED else (fun _ => (0 : Nat)) j)
      (validRecordsView g s.flash s.activePage)) 0 = _
  rw [fold_pos0 i (validRecordsView g s.flash s.activePage) _ hidx]
  simp only [specAuthoritative]
  rw [validView_map_snd g s.flash s.activePage]
  cases hgl : ((((recordSlots g s.flash s.activePage).map Prod.snd).takeWhile
      (fun r => r.status == Record.VALID)).filter (fun r => r.index == i)).getLast? with
  | none => simp [FLASH_ERASED]
  | some r => simp

/-- C5: a put whose uint16-truncated range reaches the capacity or beyond
is dropped: it issues no program or erase operation and returns the state
unchanged, flash contents and cached page tags included. -/
theorem put_out_of_range_noop (g : Geom) (s : EE) (startIndex : Nat) (src : List Nat)
    (h1 : startIndex < 65536) (h2 : src.length < 65536)
    (h : capacity g ≤ startIndex + src.length) :
    put g s startIndex src = (s, []) := by
  unfold put
  rw [Nat.mod_eq_of_lt h1, Nat.mod_eq_of_lt h2, List.take_length]
  unfold writeRange
  rw [if_pos (show startIndex + src.length ≥ capacity g from h)]

/-- C9: get is total and read-only on every index of the uint16 range: it
returns the state unchanged with an empty operation list, and every
destination byte of the requested range that no valid record of the
active page matches is filled with 0xFF. -/
theorem get_total_readonly (g : Geom) (s : EE) (index length : Nat) (buf0 : Nat → Nat) :
    (get g s index length buf0).2 = (s, []) ∧
    ∀ j, j < length % 65536 →
      (∀ ar ∈ validRecordsView g s.flash s.activePage,
        ¬(index % 65536 ≤ ar.2.index ∧
          ar.2.index ≤ (index % 65536 + length % 65536) % 65536 ∧
          ar.2.index - index % 65536 = j)) →
      (get g s index length buf0).1 j = 0xFF := by
  refine ⟨rfl, ?_⟩
  intro j hj hno
  unfold get
  dsimp only
  unfold readRange
  show List.foldl _
      (fun j => if j < length % 65536 then FLASH_ERASED else buf0 j) _ j = 0xFF
  rw [fold_no_store (index % 65536) ((index % 65536 + length % 65536) % 65536) j
    (validRecordsView g s.flash s.activePage) _ hno]
  rw [if_pos hj]
  rfl

/-- C3: compaction does not preserve the value of every previously written
id: booting on a page holding a committed record for id 1 and a torn
INVALID record, a put of one byte at id 0 triggers a swap whose copy loop
excludes the inclusive range [0, 1], so id 1 silently loses its value 0xBB
and reads as the erased 0xFF afterwards, while id 0 takes the new byte. -/
theorem compaction_loses_boundary_id :
    getByte gW sTorn 1 = 0xBB ∧
    getByte gW (put gW sTorn 0 [0xAA]).1 1 = 0xFF ∧
    getByte gW (put gW sTorn 0 [0xAA]).1 0 = 0xAA := by decide

/-- C10: the readRange filter accepts a record whose index equals
startIndex + length, one past the requested range, and then stores its
data at destination offset length: a one-byte read starting at id 1 on a
page holding a record for id 2 writes that record's data into the byte
one past the end of the destination buffer. -/
theorem read_range_oob_store :
    readRange gW sOob 1 1 (fun _ => 0) 1 = 0xAB := by decide


/-- C6 (counterexample): the byte-oriented updateActivePage has no
promotion branch.  Booting it on media with page 1 INACTIVE and page 2
COPY does not promote the completed COPY page: no page qualifies, the
media is cleared, page 1 ends up the active page and the former COPY
page is erased. -/
theorem byte_variant_no_promotion_cex :
    (initEE gW fPromote).1.activePage = LogicalPage.Page1 ∧
    readPageStatus gW (initEE gW fPromote).1.flash LogicalPage.Page2 =
      PageHeader.ERASED := by decide

/-- C6 (amended): the record-oriented revision's getActiveSector performs
the promotion the claim describes: with one sector COPY and the other
INACTIVE it programs ACTIVE into the COPY sector's status and selects
that sector. -/
theorem rv_promotion (g : Geom) (f : Flash) :
    (RV.readSectorStatus g f .Sector1 = RV.SECTOR_COPY ∧
     RV.readSectorStatus g f .Sector2 = RV.SECTOR_INACTIVE →
      RV.getActiveSector g f =
        (.Sector1, (RV.writeSectorStatus g f .Sector1 RV.SECTOR_ACTIVE).1,
         (RV.writeSectorStatus g f .Sector1 RV.SECTOR_ACTIVE).2)) ∧
    (RV.readSectorStatus g f .Sector1 = RV.SECTOR_INACTIVE ∧
     RV.readSectorStatus g f .Sector2 = RV.SECTOR_COPY →
      RV.getActiveSector g f =
        (.Sector2, (RV.writeSectorStatus g f .Sector2 RV.SECTOR_ACTIVE).1,
         (RV.writeSectorStatus g f .Sector2 RV.SECTOR_ACTIVE).2)) := by
  constructor
  · rintro ⟨h1, h2⟩
    unfold RV.getActiveSector
    rw [if_neg (by rw [h1]; norm_num [RV.SECTOR_COPY, RV.SECTOR_ACTIVE])]
    rw [if_neg (by rw [h2]; norm_num [RV.SECTOR_INACTIVE, RV.SECTOR_ACTIVE])]
    rw [if_pos ⟨h1, h2⟩]
  · rintro ⟨h1, h2⟩
    unfold RV.getActiveSector
    rw [if_neg (by rw [h1]; norm_num [RV.SECTOR_INACTIVE, RV.SECTOR_ACTIVE])]
    rw [if_neg (by rw [h2]; norm_num [RV.SECTOR_COPY, RV.SECTOR_ACTIVE])]
    rw [if_neg (by rw [h1, h2]; norm_num [RV.SECTOR_COPY, RV.SECTOR_INACTIVE])]
    rw [if_pos ⟨h1, h2⟩]

/-- C6 (witness): on media with sector 1 INACTIVE and sector 2 COPY the
promotion fires and selects sector 2. -/
theorem rv_promotion_witness :
    (RV.readSectorStatus gW fPromote .Sector1 = RV.SECTOR_INACTIVE ∧
     RV.readSectorStatus gW fPromote .Sector2 = RV.SECTOR_COPY) ∧
    RV.getActiveSector gW fPromote =
      (.Sector2, (RV.writeSectorStatus gW fPromote .Sector2 RV.SECTOR_ACTIVE).1,
       (RV.writeSectorStatus gW fPromote .Sector2 RV.SECTOR_ACTIVE).2) :=
  ⟨⟨by decide, by decide⟩, (rv_promotion gW fPromote).2 ⟨by decide, by decide⟩⟩

/-- C7 (counterexample): after a clear, the first empty record slot of the
active page sits two bytes after the page base, not four. -/
theorem header_two_bytes_cex :
    findEmptyAddress gW (clear gW sFresh).1.flash LogicalPage.Page1 =
      gW.base1 + 2 ∧
    gW.base1 + 2 ≠ gW.base1 + 4 := by decide

/-- C7 (amended): the page header occupies pageHeaderSize = 2 bytes, a
freshly cleared page's first record goes right after those 2 bytes, and
every record slot follows contiguously in recordSize = 4 byte steps. -/
theorem record_layout {g : Geom} {f : Flash} {p : LogicalPage} {recs : List Record}
    (h : PageRecs g f p recs) :
    pageHeaderSize = 2 ∧
    findEmptyAddress g f p =
      getPageStart g p + pageHeaderSize + recordSize * recs.length ∧
    ∀ c : Nat, slotAddr g p c = getPageStart g p + pageHeaderSize + recordSize * c := by
  refine ⟨rfl, ?_, ?_⟩
  · rw [findEmptyAddress_eq h]
    unfold slotAddr pageHeaderSize recordSize
    omega
  · intro c
    unfold slotAddr pageHeaderSize recordSize
    omega

/-- C7 (witness): the layout facts on the freshly cleared test page. -/
theorem record_layout_witness :
    PageRecs gW (clear gW sFresh).1.flash LogicalPage.Page1 [] ∧
    (pageHeaderSize = 2 ∧
     findEmptyAddress gW (clear gW sFresh).1.flash LogicalPage.Page1 =
       getPageStart gW LogicalPage.Page1 + pageHeaderSize +
         recordSize * ([] : List Record).length ∧
     ∀ c : Nat, slotAddr gW LogicalPage.Page1 c =
       getPageStart gW LogicalPage.Page1 + pageHeaderSize + recordSize * c) :=
  ⟨⟨by decide, by decide, by decide, by decide⟩,
   record_layout ⟨by decide, by decide, by decide, by decide⟩⟩


/-- The freshly initialised test store is a healthy active state with no
records. -/
theorem activeState_sFresh : ActiveState gW sFresh LogicalPage.Page1 [] :=
  ⟨⟨by decide, by decide, by decide, by decide, by decide, by decide, by decide⟩,
   Or.inl rfl, by decide, by decide, by decide,
   ⟨by decide, by decide, by decide, by decide⟩, by decide⟩

/-- The test store holding the single committed record id 1 = 0xBB is a
healthy active state. -/
theorem activeState_sOne :
    ActiveState gW sOne LogicalPage.Page1 [⟨1, Record.VALID, 0xBB⟩] :=
  ⟨⟨by decide, by decide, by decide, by decide, by decide, by decide, by decide⟩,
   Or.inl rfl, by decide, by decide, by decide,
   ⟨by decide, by decide, by decide, by decide⟩, by decide⟩

/-- C8 (counterexample): put is not idempotent on storage in general: on a
state holding a torn INVALID record, rewriting id 1 with the value it
already reads back still issues flash operations (it triggers a page
swap). -/
theorem put_idempotent_cex :
    getByte gW sTorn 1 = 0xBB ∧ (put gW sTorn 1 [0xBB]).2 ≠ [] := by decide

/-- C8 (amended): on a healthy active page without invalid records, a put
of the byte an id already reads back issues no flash operation and
returns the state unchanged, so repeating a put changes nothing. -/
theorem put_idempotent_healthy {g : Geom} {s : EE} {p : LogicalPage} {recs : List Record}
    (hA : ActiveState g s p recs) (id v : Nat)
    (hid : id + 1 < capacity g) (hv : v < 256)
    (hcur : getByte g s id = v)
    (hroom : 2 + 4 * (recs.length + 1) + 4 ≤ getPageSize g p) :
    put g s id [v] = (s, []) := by
  have hcap := capacity_le hA.geom
  have hput : put g s id [v] = writeRange g s id [v] := by
    unfold put
    rw [Nat.mod_eq_of_lt (show id < 65536 by omega)]
    rfl
  obtain ⟨heq, _, _⟩ := writeRange_direct hA id [v]
    (by intro b hb; rw [List.mem_singleton] at hb; omega)
    (by simpa using hid)
    (by simpa using hroom)
  have hcur2 : readRange g s id 1 (fun _ => 0) 0 = v := by
    rw [← hcur]
    unfold getByte get
    dsimp only
    rw [Nat.mod_eq_of_lt (show id < 65536 by omega)]
  have hch : chL g s id [v] = [] := by
    rw [chL]
    show changedFrom [v] (readRange g s id 1 (fun _ => 0)) 0 1 = []
    rw [changedFrom_cons]
    rw [if_neg (by push_neg; rw [hcur2]; rfl)]
    rfl
  have hops : wrOps g s p id [v] recs.length = [] := by
    simp only [wrOps, hch]
    rfl
  rw [hput, heq, hops]
  rfl

/-- C8 (witness): rewriting the stored byte of id 1 on the healthy
one-record state is a storage no-op. -/
theorem put_idempotent_healthy_witness :
    ActiveState gW sOne LogicalPage.Page1 [⟨1, Record.VALID, 0xBB⟩] ∧
    1 + 1 < capacity gW ∧ (0xBB : Nat) < 256 ∧ getByte gW sOne 1 = 0xBB ∧
    2 + 4 * (([⟨1, Record.VALID, 0xBB⟩] : List Record).length + 1) + 4 ≤
      getPageSize gW LogicalPage.Page1 ∧
    put gW sOne 1 [0xBB] = (sOne, []) :=
  ⟨activeState_sOne, by decide, by decide, by decide, by decide,
   put_idempotent_healthy activeState_sOne 1 0xBB (by decide) (by decide)
     (by decide) (by decide)⟩

/-- C4 (counterexample): read-after-write fails at the last id: the range
check drops a put whose one-byte range ends at the capacity, so id
capacity - 1 = 6 cannot be written at all and reads back 0xFF, not the
value just put. -/
theorem put_get_capacity_edge_cex :
    capacity gW = 7 ∧ (put gW sFresh 6 [0xCC]).2 = [] ∧
    getByte gW (put gW sFresh 6 [0xCC]).1 6 = 0xFF := by decide

/-- C4 (amended): read-after-write holds on a healthy active page for
every id with id + 1 strictly below the capacity (the range check drops
the write for the last id) when the page has room for one more record :
after put(id, v), get(id) returns v. -/
theorem put_get_in_range {g : Geom} {s : EE} {p : LogicalPage} {recs : List Record}
    (hA : ActiveState g s p recs) (id v : Nat)
    (hv : v < 256) (hid : id + 1 < capacity g)
    (hroom : 2 + 4 * (recs.length + 1) + 4 ≤ getPageSize g p) :
    getByte g (put g s id [v]).1 id = v := by
  have hcap := capacity_le hA.geom
  have hput : put g s id [v] = writeRange g s id [v] := by
    unfold put
    rw [Nat.mod_eq_of_lt (show id < 65536 by omega)]
    rfl
  obtain ⟨heq, hPfin, _⟩ := writeRange_direct hA id [v]
    (by intro b hb; rw [List.mem_singleton] at hb; omega)
    (by simpa using hid)
    (by simpa using hroom)
  rw [hput, heq]
  unfold getByte get
  dsimp only
  rw [Nat.mod_eq_of_lt (show id < 65536 by omega),
    show (1 : Nat) % 65536 = 1 from rfl]
  exact @final_read g s p recs hA id [v] (by simpa using hid)
    (⟨applyOps s.flash (wrOps g s p id [v] recs.length), s.activePage,
      s.alternatePage⟩ : EE)
    hPfin hA.act 0 (by simp)

/-- C4 (witness): putting 0xCD at id 2 of the fresh store reads back
0xCD. -/
theorem put_get_in_range_witness :
    ActiveState gW sFresh LogicalPage.Page1 [] ∧
    (0xCD : Nat) < 256 ∧ 2 + 1 < capacity gW ∧
    2 + 4 * (([] : List Record).length + 1) + 4 ≤ getPageSize gW LogicalPage.Page1 ∧
    getByte gW (put gW sFresh 2 [0xCD]).1 2 = 0xCD :=
  ⟨activeState_sFresh, by decide, by decide, by decide,
   put_get_in_range activeState_sFresh 2 0xCD (by decide) (by decide) (by decide)⟩


/-- C1: reset atomicity of put on a healthy active page: with a reset
injected after any prefix of the program operations put issues for an
in-range buffer, booting on the interrupted media and range-reading
yields for every byte of the range either its pre-put value or the new
contents, never a mixture (the new contents appear exactly at the full
trace, whose last flip commits the oldest appended record). -/
theorem put_reset_atomic {g : Geom} {s : EE} {p : LogicalPage} {recs : List Record}
    (hA : ActiveState g s p recs) (startIndex : Nat) (src : List Nat)
    (hsrc : ∀ b ∈ src, b < 256)
    (hrange : startIndex + src.length < capacity g)
    (hroom : 2 + 4 * (recs.length + src.length) + 4 ≤ getPageSize g p) :
    ∀ k ≤ ((put g s startIndex src).2).length,
      (∀ j < src.length,
        (get g (initEE g (applyOps s.flash
            (((put g s startIndex src).2).take k))).1 startIndex src.length
            (fun _ => 0)).1 j =
          (get g s startIndex src.length (fun _ => 0)).1 j) ∨
      (∀ j < src.length,
        (get g (initEE g (applyOps s.flash
            (((put g s startIndex src).2).take k))).1 startIndex src.length
            (fun _ => 0)).1 j = src.getD j 0) := by
  have hcap := capacity_le hA.geom
  have hsi : startIndex % 65536 = startIndex := Nat.mod_eq_of_lt (by omega)
  have hsl : src.length % 65536 = src.length := Nat.mod_eq_of_lt (by omega)
  have hput : put g s startIndex src = writeRange g s startIndex src := by
    unfold put
    rw [hsi, hsl, List.take_length]
  obtain ⟨heq, hPfin, hOfin⟩ := writeRange_direct hA startIndex src hsrc hrange hroom
  rw [hput, heq]
  dsimp only
  intro k hk
  by_cases hk1 : k = (wrOps g s p startIndex src recs.length).length
  · right
    intro j hj
    rw [hk1, List.take_length]
    have hstat := readPageStatus_congr hA.geom hA.hp hOfin
    have hinit := initEE_select hA.hp
      (show readPageStatus g (applyOps s.flash (wrOps g s p startIndex src recs.length)) p =
          PageHeader.ACTIVE from by rw [hstat p]; exact hA.stat)
      (by
        intro hp2 hact1
        exact hA.statOther hp2 (by rw [← hstat LogicalPage.Page1]; exact hact1))
    rw [hinit]
    dsimp only
    unfold get
    dsimp only
    rw [hsi, hsl]
    exact @final_read g s p recs hA startIndex src hrange
      (⟨applyOps s.flash (wrOps g s p startIndex src recs.length), p,
        if p = LogicalPage.Page1 then LogicalPage.Page2 else LogicalPage.Page1⟩ : EE)
      hPfin rfl j hj
  · left
    intro j hj
    have hklt : k < (wrOps g s p startIndex src recs.length).length := by
      rcases Nat.lt_or_ge k (wrOps g s p startIndex src recs.length).length with h | h
      · exact h
      · exact absurd (Nat.le_antisymm hk h) hk1
    obtain ⟨hview, hOut⟩ := reset_prefix_view hA startIndex src hsrc hrange hroom k hklt
    have hstat := readPageStatus_congr hA.geom hA.hp hOut
    have hinit := initEE_select hA.hp
      (show readPageStatus g
          (applyOps s.flash ((wrOps g s p startIndex src recs.length).take k)) p =
          PageHeader.ACTIVE from by rw [hstat p]; exact hA.stat)
      (by
        intro hp2 hact1
        exact hA.statOther hp2 (by rw [← hstat LogicalPage.Page1]; exact hact1))
    rw [hinit]
    dsimp only
    unfold get
    dsimp only
    rw [hsi, hsl]
    have hv : validRecordsView g
        ((⟨applyOps s.flash ((wrOps g s p startIndex src recs.length).take k), p,
          if p = LogicalPage.Page1 then LogicalPage.Page2
          else LogicalPage.Page1⟩ : EE)).flash
        ((⟨applyOps s.flash ((wrOps g s p startIndex src recs.length).take k), p,
          if p = LogicalPage.Page1 then LogicalPage.Page2
          else LogicalPage.Page1⟩ : EE)).activePage =
        validRecordsView g s.flash s.activePage := by
      show validRecordsView g
        (applyOps s.flash ((wrOps g s p startIndex src recs.length).take k)) p = _
      rw [hA.act]
      exact hview
    exact congrFun (readRange_congr_states hv startIndex src.length (fun _ => 0)) j

/-- C1 (witness): the atomicity statement instantiated on the healthy
one-record state with a one-byte put at id 0. -/
theorem put_reset_atomic_witness :
    ActiveState gW sOne LogicalPage.Page1 [⟨1, Record.VALID, 0xBB⟩] ∧
    (∀ b ∈ [0xAA], b < 256) ∧ 0 + ([0xAA] : List Nat).length < capacity gW ∧
    2 + 4 * (([⟨1, Record.VALID, 0xBB⟩] : List Record).length +
      ([0xAA] : List Nat).length) + 4 ≤ getPageSize gW LogicalPage.Page1 ∧
    (∀ k ≤ ((put gW sOne 0 [0xAA]).2).length,
      (∀ j < ([0xAA] : List Nat).length,
        (get gW (initEE gW (applyOps sOne.flash
            (((put gW sOne 0 [0xAA]).2).take k))).1 0 ([0xAA] : List Nat).length
            (fun _ => 0)).1 j =
          (get gW sOne 0 ([0xAA] : List Nat).length (fun _ => 0)).1 j) ∨
      (∀ j < ([0xAA] : List Nat).length,
        (get gW (initEE gW (applyOps sOne.flash
            (((put gW sOne 0 [0xAA]).2).take k))).1 0 ([0xAA] : List Nat).length
            (fun _ => 0)).1 j = ([0xAA] : List Nat).getD j 0)) :=
  ⟨activeState_sOne, by decide, by decide, by decide,
   put_reset_atomic activeState_sOne 0 [0xAA] (by decide) (by decide) (by decide)⟩


/-- C2 (witness): the refinement instantiated at id 1 of the one-record
state. -/
theorem get_reads_last_valid_witness :
    (1 : Nat) < 65535 ∧
    (∀ ar ∈ validRecordsView gW sOne.flash sOne.activePage, ar.2.index < 65535) ∧
    getByte gW sOne 1 = specAuthoritative gW sOne.flash sOne.activePage 1 :=
  ⟨by decide, by decide, get_reads_last_valid 1 (by decide) (by decide)⟩

/-- C5 (witness): a two-byte put at id 6 of the seven-byte store is
silently dropped. -/
theorem put_out_of_range_noop_witness :
    (6 : Nat) < 65536 ∧ ([0xCC, 0xDD] : List Nat).length < 65536 ∧
    capacity gW ≤ 6 + ([0xCC, 0xDD] : List Nat).length ∧
    put gW sOne 6 [0xCC, 0xDD] = (sOne, []) :=
  ⟨by decide, by decide, by decide,
   put_out_of_range_noop gW sOne 6 [0xCC, 0xDD] (by decide) (by decide) (by decide)⟩

/-- C9 (witness): a read beyond the capacity changes nothing and reports
0xFF. -/
theorem get_total_readonly_witness :
    (get gW sOne 9 3 (fun _ => 0)).2 = (sOne, []) ∧
    (get gW sOne 9 3 (fun _ => 0)).1 0 = 0xFF :=
  ⟨(get_total_readonly gW sOne 9 3 (fun _ => 0)).1,
   (get_total_readonly gW sOne 9 3 (fun _ => 0)).2 0 (by decide) (by decide)⟩

end EEB
